import Mathlib

set_option maxRecDepth 100000

/-!
# gh-hok: request classification, rewriting and relaying

A shallow embedding of `main.go` (a reverse proxy for GitHub URLs) and the
properties of its request pipeline.

* Strings are lists of characters.
* The regular expressions of the program are values of `Re`, a syntax tree
  with the operators the program's patterns use, run by a backtracking
  matcher `Re.run` that lists the ways a pattern can match in the order of
  preference of Go's `regexp` package (leftmost-first: an alternation
  prefers its left branch, a greedy repetition prefers to repeat, a lazy one
  prefers to stop).
* `handler` returns the call it ends with (`Action`); `serve` composes it
  with `proxy` and `handleAPIRequest`, which take the upstream server as a
  function and record every request sent through `httpClient.Do`.
-/

namespace GhHok

/-! ## Regular expressions -/

/-- Capture groups recorded so far, most recent first: group number and text. -/
abbrev Caps := List (Nat × List Char)

/-- One way a pattern can match a piece of input: the input left unread and the
capture groups. -/
abbrev Outcome := List Char × Caps

/-- Syntax of the regular expressions used by the program.
`bot` is `^`, `eot` is `$` (no multi-line flag is used, so both are text
anchors), `cls p` is one character satisfying `p`, `star true r` is `r*`,
`star false r` is `r*?`, `grp i r` is the `i`-th capturing group. -/
inductive Re where
  | eps : Re
  | bot : Re
  | eot : Re
  | cls (p : Char → Bool) : Re
  | seq (a b : Re) : Re
  | alt (a b : Re) : Re
  | star (greedy : Bool) (a : Re) : Re
  | grp (i : Nat) (a : Re) : Re

namespace Re

/-- The literal character `c`. -/
def chr (c : Char) : Re := cls (fun a => a == c)

/-- The pattern `.`: any character but a line feed. -/
def dot : Re := cls (fun a => a != '\n')

/-- The pattern `[^c]`: any character but `c` (a line feed included). -/
def notChr (c : Char) : Re := cls (fun a => a != c)

/-- A literal string, character by character. -/
def str : List Char → Re
  | [] => eps
  | a :: w => seq (chr a) (str w)

/-- The pattern `r?` (greedy: prefers to match `r`). -/
def opt (r : Re) : Re := alt r eps

/-- The pattern `r+` (`greedy = true`) or `r+?` (`greedy = false`). -/
def plus (greedy : Bool) (r : Re) : Re := seq r (star greedy r)

/-- Concatenation of a list of patterns. -/
def cat : List Re → Re
  | [] => eps
  | [r] => r
  | r :: rs => seq r (cat rs)

/-- Number of capturing groups, `Regexp.NumSubexp`. -/
def numSubexp : Re → Nat
  | eps => 0
  | bot => 0
  | eot => 0
  | cls _ => 0
  | seq a b => numSubexp a + numSubexp b
  | alt a b => numSubexp a + numSubexp b
  | star _ a => numSubexp a
  | grp _ a => numSubexp a + 1

/-- Repetition of `step`, at most `fuel` times; every repetition must read at
least one character. A greedy repetition lists the longer matches first, a
lazy one the shorter. -/
def iter (greedy : Bool) (step : List Char → Caps → List Outcome) :
    Nat → List Char → Caps → List Outcome
  | 0, s, c => [(s, c)]
  | k + 1, s, c =>
    let again := ((step s c).filter (fun x => decide (x.1.length < s.length))).flatMap
      (fun x => iter greedy step k x.1 x.2)
    if greedy then again ++ [(s, c)] else (s, c) :: again

/-- All the ways pattern `r` matches a beginning of `s`, in order of preference.
`n` is the length of the whole text, so that `^` can tell the start. -/
def run (n : Nat) : Re → List Char → Caps → List Outcome
  | eps, s, c => [(s, c)]
  | bot, s, c => if s.length = n then [(s, c)] else []
  | eot, s, c => if s.length = 0 then [(s, c)] else []
  | cls p, s, c =>
    match s with
    | [] => []
    | a :: t => if p a then [(t, c)] else []
  | seq a b, s, c => (run n a s c).flatMap (fun x => run n b x.1 x.2)
  | alt a b, s, c => run n a s c ++ run n b s c
  | star g a, s, c => iter g (fun s1 c1 => run n a s1 c1) s.length s c
  | grp i a, s, c =>
    (run n a s c).map (fun x => (x.1, (i, s.take (s.length - x.1.length)) :: x.2))

/-- Leftmost match: the preferred match at the first offset that has one. -/
def search (n : Nat) (r : Re) : List Char → Option Caps
  | [] => ((run n r [] []).head?).map Prod.snd
  | a :: t =>
    match (run n r (a :: t) []).head? with
    | some x => some x.2
    | none => search n r t

/-- Text of group `i`, empty when the group took no part in the match. -/
def capText (c : Caps) (i : Nat) : List Char := (c.lookup i).getD []

/-- The method `Regexp.FindStringSubmatch`: the text of the leftmost match and of
its groups, `none` for Go's `nil`. -/
def findStringSubmatch (re : Re) (s : List Char) : Option (List (List Char)) :=
  (search s.length (grp 0 re) s).map
    (fun c => (List.range (re.numSubexp + 1)).map (capText c))

/-- The method `Regexp.MatchString`. -/
def matchString (re : Re) (s : List Char) : Bool :=
  (search s.length (grp 0 re) s).isSome

end Re

open Re

/-! ## The patterns of the program -/

/-- The pattern `(?:https?://)?`. -/
def scheme : Re := opt (cat [str "http".toList, opt (chr 's'), str "://".toList])

/-- The pattern `([^/]+)` as group `i`. -/
def segment (i : Nat) : Re := grp i (plus true (notChr '/'))

/-- The pattern `^(?:https?://)?github\.com/([^/]+)/([^/]+)/(?:releases|archive)/.*$`. -/
def exp0 : Re :=
  cat [bot, scheme, str "github.com/".toList, segment 1, chr '/', segment 2, chr '/',
    alt (str "releases".toList) (str "archive".toList), chr '/', star true dot, eot]

/-- The pattern `^(?:https?://)?github\.com/([^/]+)/([^/]+)/(?:blob|raw)/.*$`. -/
def exp1 : Re :=
  cat [bot, scheme, str "github.com/".toList, segment 1, chr '/', segment 2, chr '/',
    alt (str "blob".toList) (str "raw".toList), chr '/', star true dot, eot]

/-- The pattern `^(?:https?://)?github\.com/([^/]+)/([^/]+)/(?:info|git-).*$`. -/
def exp2 : Re :=
  cat [bot, scheme, str "github.com/".toList, segment 1, chr '/', segment 2, chr '/',
    alt (str "info".toList) (str "git-".toList), star true dot, eot]

/-- The pattern `^(?:https?://)?raw\.github(?:usercontent|)\.com/([^/]+)/([^/]+)/.+?/.+$`. -/
def exp3 : Re :=
  cat [bot, scheme, str "raw.github".toList, alt (str "usercontent".toList) eps,
    str ".com/".toList, segment 1, chr '/', segment 2, chr '/',
    plus false dot, chr '/', plus true dot, eot]

/-- The pattern `^(?:https?://)?gist\.github\.com/([^/]+)/.+?/.+$`. -/
def exp4 : Re :=
  cat [bot, scheme, str "gist.github.com/".toList, segment 1, chr '/',
    plus false dot, chr '/', plus true dot, eot]

/-- The pattern `^(?:https?://)?api\.github\.com/(.*)$`. -/
def exp5 : Re :=
  cat [bot, scheme, str "api.github.com/".toList, grp 1 (star true dot), eot]

/-- The list `exps` of `main.go`: the accepted URL shapes, in order. -/
def exps : List Re := [exp0, exp1, exp2, exp3, exp4, exp5]

/-- The pattern `^(http:|https:)?/?/?(.*)` compiled in `handler`. -/
def re : Re :=
  cat [bot, opt (grp 1 (alt (str "http:".toList) (str "https:".toList))),
    opt (chr '/'), opt (chr '/'), grp 2 (star true dot)]

/-! ## Strings -/

/-- The function `strings.TrimPrefix`. -/
def trimPrefix (s pre : List Char) : List Char :=
  if pre.isPrefixOf s then s.drop pre.length else s

/-- The function `strings.Contains`. -/
def contains : List Char → List Char → Bool
  | [], sub => sub.isPrefixOf []
  | a :: t, sub => sub.isPrefixOf (a :: t) || contains t sub

/-- The call `strings.Replace(s, old, new, 1)` for a non-empty `old`: the first
occurrence of `old` is replaced. -/
def replaceFirst (old new : List Char) : List Char → List Char
  | [] => []
  | a :: t =>
    if old.isPrefixOf (a :: t) then new ++ (a :: t).drop old.length
    else a :: replaceFirst old new t

/-! ## Decimal numbers -/

/-- The two errors of `strconv`: `ErrSyntax` and `ErrRange`. -/
inductive NumError where
  | errSyntax
  | errRange
  deriving DecidableEq, Repr

/-- The digit loop of `strconv.ParseUint(s, 10, 64)`, with `n` the value read so
far. A character that is no decimal digit is a syntax error; a value that
leaves 64 bits is a range error, reported where it happens. -/
def parseUintLoop : List Char → Nat → Except NumError Nat
  | [], n => .ok n
  | ch :: t, n =>
    if '0' ≤ ch ∧ ch ≤ '9' then
      let d := ch.toNat - '0'.toNat
      if n ≥ (2 ^ 64 - 1) / 10 + 1 then .error .errRange
      else
        let n10 := n * 10
        let n1 := (n10 + d) % 2 ^ 64
        if n1 < n10 ∨ n1 > 2 ^ 64 - 1 then .error .errRange
        else parseUintLoop t n1
    else .error .errSyntax

/-- The call `strconv.ParseUint(s, 10, 64)`. -/
def parseUint (s : List Char) : Except NumError Nat :=
  if s = [] then .error .errSyntax else parseUintLoop s 0

/-- The call `strconv.ParseInt(s, 10, 64)`: an optional sign and decimal digits,
within the signed 64-bit range. -/
def parseInt (s : List Char) : Except NumError Int :=
  match s with
  | [] => .error .errSyntax
  | ch :: t =>
    let neg := ch = '-'
    let digits := if ch = '+' ∨ ch = '-' then t else ch :: t
    match parseUint digits with
    | .error e => .error e
    | .ok un =>
      if ¬ neg ∧ un ≥ 2 ^ 63 then .error .errRange
      else if neg ∧ un > 2 ^ 63 then .error .errRange
      else .ok (if neg then - (un : Int) else (un : Int))

/-! ## HTTP headers -/

/-- The type `http.Header`: keys (in canonical form, as `net/http` stores them)
with their values. A key occurs once; the first entry of a key counts. -/
abbrev Header := List (String × List String)

namespace Header

/-- The values under `key`. -/
def values (h : Header) (key : String) : List String := (h.lookup key).getD []

/-- The method `Header.Get`: the first value under `key`, or `""`. -/
def get (h : Header) (key : String) : String := (values h key).headD ""

/-- The method `Header.Del`. -/
def del (h : Header) (key : String) : Header := h.filter (fun kv => kv.1 != key)

/-- The method `Header.Set`: `key` keeps the one value `value`. -/
def set (h : Header) (key value : String) : Header := (key, [value]) :: del h key

/-- The method `Header.Add`: `value` is appended to the values of `key`. -/
def add (h : Header) (key value : String) : Header :=
  (key, values h key ++ [value]) :: del h key

end Header

/-! ## Requests and responses -/

/-- The constant `sizeLimit`: 1 GiB. -/
def sizeLimit : Int := 1024 * 1024 * 1024 * 1

/-- An outbound request: what `http.NewRequest` and the header loops build. -/
structure Request where
  method : String
  url : List Char
  header : Header
  body : List Nat
  deriving DecidableEq, Repr

/-- An upstream response; `url` is `resp.Request.URL.String()`, the URL the
client ended at. -/
structure Response where
  statusCode : Nat
  header : Header
  body : List Nat
  url : List Char
  deriving DecidableEq, Repr

/-- The part of `gin.Context` the handlers read: the inbound request and the
headers already set on the response writer. -/
structure Context where
  method : String
  requestURI : List Char
  header : Header
  body : List Nat
  writer : Header
  deriving DecidableEq, Repr

/-- The outside world of the handlers: `newRequest` gives the error of
`http.NewRequest` for a method and a URL, if any; `roundTrip` is
`httpClient.Do`. -/
structure Client where
  newRequest : String → List Char → Option String
  roundTrip : Request → Except String Response

/-- What the caller is answered: a text (`c.String`), a redirect (`c.Redirect`),
or a status, the headers of the writer and the streamed body. -/
inductive Reply where
  | text (status : Nat) (body : String)
  | redirect (status : Nat) (location : List Char)
  | stream (status : Nat) (header : Header) (body : List Nat)
  deriving DecidableEq, Repr

/-- The headers a streamed reply carries (none for the other replies). -/
def Reply.header : Reply → Header
  | .stream _ h _ => h
  | _ => []

/-- A reply together with the requests sent upstream while producing it. -/
structure Result where
  reply : Reply
  sent : List Request
  deriving DecidableEq, Repr

/-- The method `c.Header(key, value)` of gin: `Set` on the writer's headers, and
`Del` when `value` is empty. -/
def cHeader (w : Header) (key value : String) : Header :=
  if value = "" then Header.del w key else Header.set w key value

/-- The loops that copy the response headers: `c.Header(key, value)` for every
key and every value under it. -/
def copyResponseHeader (w : Header) (src : Header) : Header :=
  src.foldl (fun w1 kv => kv.2.foldl (fun w2 value => cHeader w2 kv.1 value) w1) w

/-- The loops that copy the request headers: `req.Header.Add(key, value)` for
every key and every value under it. -/
def copyRequestHeader (h : Header) (src : Header) : Header :=
  src.foldl (fun h1 kv => kv.2.foldl (fun h2 value => Header.add h2 kv.1 value) h1) h

/-- The request `handleAPIRequest` sends: method and body of the inbound request
and its headers copied. -/
def apiRequest (c : Context) (rawPath : List Char) : Request :=
  ⟨c.method, rawPath, copyRequestHeader [] c.header, c.body⟩

/-- The function `handleAPIRequest`. -/
def handleAPIRequest (client : Client) (c : Context) (rawPath : List Char) : Result :=
  match client.newRequest c.method rawPath with
  | some err => ⟨.text 500 ("Error creating API request: " ++ err), []⟩
  | none =>
    let req := apiRequest c rawPath
    match client.roundTrip req with
    | .error err => ⟨.text 502 ("Error proxying API request: " ++ err), [req]⟩
    | .ok resp =>
      ⟨.stream resp.statusCode (copyResponseHeader c.writer resp.header) resp.body, [req]⟩

/-- The size test of `proxy`: `err == nil && size > sizeLimit`. -/
def overLimit (contentLength : String) : Bool :=
  match parseInt contentLength.toList with
  | .ok size => decide (size > sizeLimit)
  | .error _ => false

/-- The request `proxy` sends: method and body of the inbound request, its headers
copied, and a default `User-Agent` when the caller gave none. -/
def proxyRequest (c : Context) (u : List Char) : Request :=
  let h := copyRequestHeader [] c.header
  let h := if Header.get h "User-Agent" = "" then Header.set h "User-Agent" "GithubProxy/1.0"
    else h
  ⟨c.method, u, h, c.body⟩

/-- The function `proxy`. -/
def proxy (client : Client) (c : Context) (u : List Char) : Result :=
  match client.newRequest c.method u with
  | some err => ⟨.text 500 ("Error creating request: " ++ err), []⟩
  | none =>
    let req := proxyRequest c u
    match client.roundTrip req with
    | .error err => ⟨.text 502 ("Error proxying request: " ++ err), [req]⟩
    | .ok resp =>
      let contentLength := Header.get resp.header "Content-Length"
      if contentLength ≠ "" ∧ overLimit contentLength = true then
        ⟨.redirect 307 resp.url, [req]⟩
      else
        let w := cHeader c.writer "Cache-Control" "public, max-age=604800"
        ⟨.stream resp.statusCode (copyResponseHeader w resp.header) resp.body, [req]⟩

/-! ## handler -/

/-- How `handler` ends: with a response of its own (`c.String`), or with a call
of `handleAPIRequest` or of `proxy` on a target URL. -/
inductive Action where
  | respond (status : Nat) (body : String)
  | handleAPIRequest (rawPath : List Char)
  | proxy (u : List Char)
  deriving DecidableEq, Repr

/-- The loop of `handler` over `exps`: whether a pattern matched, and the first
group of the first pattern that did. -/
def scanExps (rawPath : List Char) : List Re → Bool × List Char
  | [] => (false, [])
  | exp :: rest =>
    match findStringSubmatch exp rawPath with
    | some m => (true, if m.length > 1 then m.getD 1 [] else [])
    | none => scanExps rawPath rest

/-- The normalized URL: `"https://" + matches[2]`, `none` when the pattern `re`
does not match. -/
def normalize (rawPath : List Char) : Option (List Char) :=
  (findStringSubmatch re rawPath).map (fun ms => "https://".toList ++ ms.getD 2 [])

/-- The function `handler`, on the request URI and the denylist. The variable
`rawPath` is assigned three times in the source, as here; `exp1` is `exps[1]`. -/
def handler (blacklist : List (List Char)) (requestURI : List Char) : Action :=
  let rawPath := trimPrefix requestURI ['/']
  if rawPath = [] then .respond 400 "Empty path"
  else
    match normalize rawPath with
    | none => .respond 400 "Invalid URL format"
    | some rawPath =>
      if contains rawPath "api.github.com".toList then .handleAPIRequest rawPath
      else
        let found := scanExps rawPath exps
        if !found.1 then .respond 403 "Invalid GitHub URL format"
        else if found.2 ≠ [] ∧ found.2 ∈ blacklist then
          .respond 403 "Access denied: User is blacklisted"
        else if matchString exp1 rawPath then
          .proxy (replaceFirst "/blob/".toList "/raw/".toList rawPath)
        else .proxy rawPath

/-- The whole of `handler`: the decision of `handler` followed by the call it
ends with. -/
def serve (blacklist : List (List Char)) (client : Client) (c : Context) : Result :=
  match handler blacklist c.requestURI with
  | .respond status body => ⟨.text status body, []⟩
  | .handleAPIRequest rawPath => handleAPIRequest client c rawPath
  | .proxy u => proxy client c u

/-! ## Notions used to state the properties -/

/-- The capturing groups named in a pattern. -/
def Re.groups : Re → List Nat
  | .eps => []
  | .bot => []
  | .eot => []
  | .cls _ => []
  | .seq a b => Re.groups a ++ Re.groups b
  | .alt a b => Re.groups a ++ Re.groups b
  | .star _ a => Re.groups a
  | .grp i a => i :: Re.groups a

/-- Every outcome of the pattern has a non-empty first group. -/
def SetsOwner (r : Re) : Prop :=
  ∀ (n : Nat) (s : List Char) (c : Caps), ∀ x ∈ run n r s c, capText x.2 1 ≠ []

/-- The first pattern of a list that matches the URL, with its place in the list
(counted from `i`) and what `FindStringSubmatch` returned for it. -/
def firstMatch (rawPath : List Char) : List Re → Nat → Option (Nat × List (List Char))
  | [], _ => none
  | exp :: rest, i =>
    match findStringSubmatch exp rawPath with
    | some m => some (i, m)
    | none => firstMatch rawPath rest (i + 1)

/-- In the words of the specification: the path without a leading `http:` or
`https:` (to be compared with what the pattern `re` captures). -/
def dropScheme (p : List Char) : List Char :=
  if "http:".toList.isPrefixOf p then p.drop 5
  else if "https:".toList.isPrefixOf p then p.drop 6
  else p

/-- In the words of the specification: the path without one leading `/`. -/
def dropSlash : List Char → List Char
  | [] => []
  | a :: t => if a = '/' then t else a :: t

/-- What `handler` finds out about a normalized URL: whether it is an API request,
which pattern of `exps` matches first, and the owner the loop extracts. -/
structure Classification where
  isAPI : Bool
  index : Option Nat
  owner : List Char
  deriving DecidableEq, Repr

/-- Classification of a path: normalization, then the API test and the loop over
`exps`. -/
def classify (rawPath : List Char) : Option Classification :=
  (normalize rawPath).map (fun u =>
    ⟨contains u "api.github.com".toList, (firstMatch u exps 0).map Prod.fst,
      (scanExps u exps).2⟩)

/-- Whether a character is a decimal digit. -/
def isDecimalDigit (ch : Char) : Bool := decide ('0' ≤ ch ∧ ch ≤ '9')

/-- The number a string of decimal digits denotes, read after the number `n`. -/
def decimalValue (s : List Char) (n : Nat) : Nat :=
  s.foldl (fun k ch => k * 10 + (ch.toNat - '0'.toNat)) n

/-- The natural number a non-empty string of decimal digits denotes. -/
def decimalNat (s : List Char) : Option Nat :=
  if s ≠ [] ∧ s.all isDecimalDigit = true then some (decimalValue s 0) else none

/-- In the words of the specification: the integer a base-10 numeral with an
optional sign denotes (to be compared with `parseInt`). -/
def decimalInt (s : List Char) : Option Int :=
  match s with
  | [] => none
  | ch :: t =>
    if ch = '-' then Option.map (fun k : Nat => - (k : Int)) (decimalNat t)
    else if ch = '+' then Option.map (fun k : Nat => (k : Int)) (decimalNat t)
    else Option.map (fun k : Nat => (k : Int)) (decimalNat (ch :: t))

/-! ## The matcher: which outcomes a pattern has -/

namespace Re

theorem mem_run_eps {n : Nat} {s : List Char} {c : Caps} {x : Outcome} :
    x ∈ run n eps s c ↔ x = (s, c) := by
  simp [run]

theorem mem_run_bot {n : Nat} {s : List Char} {c : Caps} {x : Outcome} :
    x ∈ run n bot s c ↔ s.length = n ∧ x = (s, c) := by
  by_cases h : s.length = n <;> simp [run, h]

theorem mem_run_eot {n : Nat} {s : List Char} {c : Caps} {x : Outcome} :
    x ∈ run n eot s c ↔ s = [] ∧ x = ([], c) := by
  cases s <;> simp [run]

theorem mem_run_cls {n : Nat} {p : Char → Bool} {s : List Char} {c : Caps} {x : Outcome} :
    x ∈ run n (cls p) s c ↔ ∃ a, p a = true ∧ s = a :: x.1 ∧ x.2 = c := by
  obtain ⟨x1, x2⟩ := x
  cases s with
  | nil => simp [run]
  | cons b t =>
    by_cases h : p b = true
    · simp only [run, h, if_true, List.mem_singleton, Prod.mk.injEq, List.cons.injEq]
      constructor
      · rintro ⟨rfl, rfl⟩
        exact ⟨b, h, ⟨rfl, rfl⟩, rfl⟩
      · rintro ⟨a, _, ⟨rfl, rfl⟩, rfl⟩
        exact ⟨rfl, rfl⟩
    · simp only [run, h, List.cons.injEq]
      constructor
      · intro hx
        simp at hx
      · rintro ⟨a, ha, ⟨rfl, rfl⟩, rfl⟩
        exact absurd ha h

theorem mem_run_chr {n : Nat} {a : Char} {s : List Char} {c : Caps} {x : Outcome} :
    x ∈ run n (chr a) s c ↔ s = a :: x.1 ∧ x.2 = c := by
  unfold chr
  rw [mem_run_cls]
  constructor
  · rintro ⟨b, hb, rfl, rfl⟩
    simp only [beq_iff_eq] at hb
    exact ⟨by rw [hb], rfl⟩
  · rintro ⟨rfl, rfl⟩
    exact ⟨a, by simp, rfl, rfl⟩

theorem mem_run_seq {n : Nat} {a b : Re} {s : List Char} {c : Caps} {x : Outcome} :
    x ∈ run n (seq a b) s c ↔ ∃ y ∈ run n a s c, x ∈ run n b y.1 y.2 := by
  simp [run, List.mem_flatMap]

theorem mem_run_alt {n : Nat} {a b : Re} {s : List Char} {c : Caps} {x : Outcome} :
    x ∈ run n (alt a b) s c ↔ x ∈ run n a s c ∨ x ∈ run n b s c := by
  simp [run]

theorem mem_run_opt {n : Nat} {a : Re} {s : List Char} {c : Caps} {x : Outcome} :
    x ∈ run n (opt a) s c ↔ x ∈ run n a s c ∨ x = (s, c) := by
  simp [opt, mem_run_alt, mem_run_eps]

theorem mem_run_grp {n i : Nat} {a : Re} {s : List Char} {c : Caps} {x : Outcome} :
    x ∈ run n (grp i a) s c ↔
      ∃ y ∈ run n a s c, x = (y.1, (i, s.take (s.length - y.1.length)) :: y.2) := by
  simp only [run, List.mem_map]
  constructor
  · rintro ⟨y, hy, rfl⟩
    exact ⟨y, hy, rfl⟩
  · rintro ⟨y, hy, rfl⟩
    exact ⟨y, hy, rfl⟩

theorem mem_run_str {n : Nat} {w s : List Char} {c : Caps} {x : Outcome} :
    x ∈ run n (str w) s c ↔ s = w ++ x.1 ∧ x.2 = c := by
  induction w generalizing s c with
  | nil =>
    obtain ⟨x1, x2⟩ := x
    simp only [str, mem_run_eps, Prod.mk.injEq, List.nil_append]
    constructor
    · rintro ⟨rfl, rfl⟩
      exact ⟨rfl, rfl⟩
    · rintro ⟨rfl, rfl⟩
      exact ⟨rfl, rfl⟩
  | cons a w ih =>
    simp only [str, mem_run_seq, mem_run_chr, ih, List.cons_append]
    constructor
    · rintro ⟨y, ⟨rfl, hc⟩, h1, h2⟩
      exact ⟨by rw [h1], h2.trans hc⟩
    · rintro ⟨rfl, rfl⟩
      exact ⟨(w ++ x.1, x.2), ⟨rfl, rfl⟩, rfl, rfl⟩

/-- A property of the capture groups that one step keeps is kept by a repetition. -/
theorem iter_keeps (P : List Char → Caps → Prop) (g : Bool)
    (step : List Char → Caps → List Outcome)
    (hstep : ∀ s c, P s c → ∀ x ∈ step s c, P x.1 x.2) :
    ∀ (k : Nat) (s : List Char) (c : Caps), P s c → ∀ x ∈ iter g step k s c, P x.1 x.2 := by
  intro k
  induction k with
  | zero =>
    intro s c h x hx
    simp only [iter, List.mem_singleton] at hx
    subst hx
    exact h
  | succ k ih =>
    intro s c h x hx
    have key : x = (s, c) ∨ ∃ y ∈ step s c, x ∈ iter g step k y.1 y.2 := by
      cases g
      · simp only [iter, Bool.false_eq_true, if_false, List.mem_cons, List.mem_flatMap,
          List.mem_filter] at hx
        rcases hx with hx | ⟨y, ⟨hy, _⟩, hxy⟩
        · exact Or.inl hx
        · exact Or.inr ⟨y, hy, hxy⟩
      · simp only [iter, if_true, List.mem_append, List.mem_flatMap, List.mem_filter,
          List.mem_singleton] at hx
        rcases hx with ⟨y, ⟨hy, _⟩, hxy⟩ | hx
        · exact Or.inr ⟨y, hy, hxy⟩
        · exact Or.inl hx
    rcases key with rfl | ⟨y, hy, hxy⟩
    · exact h
    · exact ih y.1 y.2 (hstep s c h y hy) x hxy

/-- A repetition of a character class reads characters of the class and leaves
the capture groups as they are. -/
theorem mem_run_star_cls {n : Nat} {g : Bool} {p : Char → Bool} {s : List Char} {c : Caps}
    {x : Outcome} (hx : x ∈ run n (star g (cls p)) s c) :
    ∃ w, s = w ++ x.1 ∧ (∀ a ∈ w, p a = true) ∧ x.2 = c := by
  simp only [run] at hx
  refine iter_keeps (fun s1 c1 => ∃ w, s = w ++ s1 ∧ (∀ a ∈ w, p a = true) ∧ c1 = c) g _ ?_
    s.length s c ⟨[], rfl, by simp, rfl⟩ x hx
  rintro s1 c1 ⟨w, rfl, hw, rfl⟩ y hy
  have hy2 : y ∈ run n (cls p) s1 c1 := by simpa [run] using hy
  obtain ⟨a, ha, rfl, hc⟩ := mem_run_cls.mp hy2
  refine ⟨w ++ [a], by simp, ?_, hc⟩
  intro b hb
  rcases List.mem_append.mp hb with hb | hb
  · exact hw b hb
  · rw [List.mem_singleton.mp hb]
    exact ha

theorem mem_run_plus_cls {n : Nat} {g : Bool} {p : Char → Bool} {s : List Char} {c : Caps}
    {x : Outcome} (hx : x ∈ run n (plus g (cls p)) s c) :
    ∃ w, w ≠ [] ∧ s = w ++ x.1 ∧ (∀ a ∈ w, p a = true) ∧ x.2 = c := by
  unfold plus at hx
  obtain ⟨y, hy, hxy⟩ := mem_run_seq.mp hx
  obtain ⟨a, ha, rfl, rfl⟩ := mem_run_cls.mp hy
  obtain ⟨w, hw, hpw, hc⟩ := mem_run_star_cls hxy
  refine ⟨a :: w, by simp, by simp [hw], ?_, hc⟩
  intro b hb
  rcases List.mem_cons.mp hb with rfl | hb
  · exact ha
  · exact hpw b hb

end Re

namespace Re

theorem capText_cons_ne {i j : Nat} (h : j ≠ i) (w : List Char) (c : Caps) :
    capText ((j, w) :: c) i = capText c i := by
  have h2 : (i == j) = false := by simpa using fun e => h e.symm
  simp [capText, List.lookup_cons, h2]

theorem capText_cons_self (i : Nat) (w : List Char) (c : Caps) :
    capText ((i, w) :: c) i = w := by
  simp [capText, List.lookup_cons]

/-- A pattern leaves the text of a group it does not name as it was. -/
theorem capText_run {i n : Nat} (r : Re) (h : i ∉ groups r) (s : List Char) (c : Caps) :
    ∀ x ∈ run n r s c, capText x.2 i = capText c i := by
  induction r generalizing s c with
  | eps => intro x hx; rw [mem_run_eps.mp hx]
  | bot => intro x hx; rw [(mem_run_bot.mp hx).2]
  | eot => intro x hx; rw [(mem_run_eot.mp hx).2]
  | cls p =>
    intro x hx
    obtain ⟨a, _, _, hc⟩ := mem_run_cls.mp hx
    rw [hc]
  | seq a b iha ihb =>
    intro x hx
    simp only [groups, List.mem_append, not_or] at h
    obtain ⟨y, hy, hxy⟩ := mem_run_seq.mp hx
    rw [ihb h.2 y.1 y.2 x hxy, iha h.1 s c y hy]
  | alt a b iha ihb =>
    intro x hx
    simp only [groups, List.mem_append, not_or] at h
    rcases mem_run_alt.mp hx with hx | hx
    · exact iha h.1 s c x hx
    · exact ihb h.2 s c x hx
  | star g a iha =>
    intro x hx
    simp only [groups] at h
    simp only [run] at hx
    exact iter_keeps (fun _ c1 => capText c1 i = capText c i) g _
      (fun s1 c1 h1 y hy => (iha h s1 c1 y hy).trans h1) s.length s c rfl x hx
  | grp j a iha =>
    intro x hx
    simp only [groups, List.mem_cons, not_or] at h
    obtain ⟨y, hy, rfl⟩ := mem_run_grp.mp hx
    rw [capText_cons_ne (fun e => h.1 e.symm), iha h.2 s c y hy]

/-- Where the leftmost match comes from: an outcome of the pattern at some
offset of the text. -/
theorem search_some {n : Nat} {r : Re} {s : List Char} {caps : Caps}
    (h : search n r s = some caps) :
    ∃ t x, t <:+ s ∧ x ∈ run n r t [] ∧ x.2 = caps := by
  induction s with
  | nil =>
    simp only [search, Option.map_eq_some'] at h
    obtain ⟨x, hx, rfl⟩ := h
    exact ⟨[], x, List.suffix_refl _, List.mem_of_mem_head? hx, rfl⟩
  | cons a t ih =>
    simp only [search] at h
    cases hh : (run n r (a :: t) []).head? with
    | none =>
      rw [hh] at h
      obtain ⟨t1, x, ht, hx, hc⟩ := ih h
      exact ⟨t1, x, ht.trans (List.suffix_cons a t), hx, hc⟩
    | some x =>
      rw [hh] at h
      simp only [Option.some.injEq] at h
      exact ⟨a :: t, x, List.suffix_refl _, List.mem_of_mem_head? hh, h⟩

/-- An outcome at offset 0 gives a match. -/
theorem search_isSome_of_mem {n : Nat} {r : Re} {s : List Char} {x : Outcome}
    (h : x ∈ run n r s []) : (search n r s).isSome = true := by
  cases s with
  | nil =>
    simp only [search]
    cases hh : (run n r [] []).head? with
    | none => rw [List.head?_eq_none_iff.mp hh] at h; cases h
    | some y => rfl
  | cons a t =>
    simp only [search]
    cases hh : (run n r (a :: t) []).head? with
    | none => rw [List.head?_eq_none_iff.mp hh] at h; cases h
    | some y => rfl

/-- A pattern that starts with `^` matches at offset 0 only: the match found is an
outcome of the rest of the pattern on the whole text. -/
theorem search_anchored {k : Re} {u : List Char} {caps : Caps}
    (h : search u.length (grp 0 (seq bot k)) u = some caps) :
    ∃ x ∈ run u.length k u [], caps = (0, u.take (u.length - x.1.length)) :: x.2 := by
  obtain ⟨t, x, ht, hx, rfl⟩ := search_some h
  obtain ⟨y, hy, rfl⟩ := mem_run_grp.mp hx
  obtain ⟨z, hz, hyz⟩ := mem_run_seq.mp hy
  obtain ⟨hlen, rfl⟩ := mem_run_bot.mp hz
  have htu : t = u := List.IsSuffix.eq_of_length ht hlen
  subst htu
  exact ⟨y, hyz, rfl⟩

theorem matchString_eq_isSome (e : Re) (u : List Char) :
    matchString e u = (findStringSubmatch e u).isSome := by
  simp [matchString, findStringSubmatch]

theorem matchString_anchored {k : Re} {u : List Char}
    (h : matchString (seq bot k) u = true) : ∃ x, x ∈ run u.length k u [] := by
  unfold matchString at h
  obtain ⟨caps, hc⟩ := Option.isSome_iff_exists.mp h
  obtain ⟨x, hx, _⟩ := search_anchored hc
  exact ⟨x, hx⟩

/-- The result of `FindStringSubmatch` for a pattern that starts with `^`. -/
theorem findStringSubmatch_anchored {k : Re} {u : List Char} {m : List (List Char)}
    (h : findStringSubmatch (seq bot k) u = some m) :
    ∃ x ∈ run u.length k u [],
      m = (List.range (numSubexp k + 1)).map
        (capText ((0, u.take (u.length - x.1.length)) :: x.2)) := by
  unfold findStringSubmatch at h
  obtain ⟨caps, hc, rfl⟩ := Option.map_eq_some'.mp h
  obtain ⟨x, hx, rfl⟩ := search_anchored hc
  exact ⟨x, hx, by simp [numSubexp]⟩

end Re

/-! ## What the patterns of `exps` accept -/

theorem groups_str (w : List Char) : groups (str w) = [] := by
  induction w with
  | nil => rfl
  | cons a w ih => simp [str, groups, chr, ih]

theorem numSubexp_str (w : List Char) : numSubexp (str w) = 0 := by
  induction w with
  | nil => rfl
  | cons a w ih => simp [str, numSubexp, chr, ih]

/-- The optional scheme reads nothing, `http://` or `https://`. -/
theorem mem_run_scheme {n : Nat} {s : List Char} {c : Caps} {x : Outcome}
    (hx : x ∈ run n scheme s c) :
    x.2 = c ∧ (s = x.1 ∨ s = "http://".toList ++ x.1 ∨ s = "https://".toList ++ x.1) := by
  unfold scheme at hx
  rcases mem_run_opt.mp hx with hx | rfl
  · simp only [cat] at hx
    obtain ⟨y, hy, hx⟩ := mem_run_seq.mp hx
    obtain ⟨z, hz, hx⟩ := mem_run_seq.mp hx
    obtain ⟨h1, h2⟩ := mem_run_str.mp hy
    obtain ⟨h5, h6⟩ := mem_run_str.mp hx
    rcases mem_run_opt.mp hz with hz | rfl
    · obtain ⟨h3, h4⟩ := mem_run_chr.mp hz
      refine ⟨by rw [h6, h4, h2], Or.inr (Or.inr ?_)⟩
      rw [h1, h3, h5]
      simp
    · refine ⟨by rw [h6, h2], Or.inr (Or.inl ?_)⟩
      rw [h1, h5]
      simp
  · exact ⟨rfl, Or.inl rfl⟩

/-- A segment `([^/]+)` reads a non-empty run of characters other than `/` and
records it as its group. -/
theorem mem_run_segment {n i : Nat} {s : List Char} {c : Caps} {x : Outcome}
    (hx : x ∈ run n (segment i) s c) :
    ∃ w, w ≠ [] ∧ '/' ∉ w ∧ s = w ++ x.1 ∧ x.2 = (i, w) :: c := by
  unfold segment notChr at hx
  obtain ⟨y, hy, rfl⟩ := mem_run_grp.mp hx
  obtain ⟨w, hw, rfl, hp, hc⟩ := mem_run_plus_cls hy
  refine ⟨w, hw, ?_, rfl, ?_⟩
  · intro hmem
    simpa using hp _ hmem
  · simp [hc]

theorem setsOwner_seq (a : Re) {k : Re} (h : SetsOwner k) : SetsOwner (seq a k) := by
  intro n s c x hx
  obtain ⟨y, _, hxy⟩ := mem_run_seq.mp hx
  exact h n y.1 y.2 x hxy

theorem setsOwner_segment {k : Re} (h : 1 ∉ groups k) : SetsOwner (seq (segment 1) k) := by
  intro n s c x hx
  obtain ⟨y, hy, hxy⟩ := mem_run_seq.mp hx
  obtain ⟨w, hw, _, _, hc⟩ := mem_run_segment hy
  rw [capText_run k h y.1 y.2 x hxy, hc, capText_cons_self]
  exact hw

/-- What `FindStringSubmatch` returns for a pattern `^k` with at least one group
whose outcomes all have a non-empty first group: more than one entry, the
second one non-empty. -/
theorem submatch_owner {k : Re} {u : List Char} {m : List (List Char)} (N : Nat)
    (hN : numSubexp k = N + 1) (hk : SetsOwner k)
    (h : findStringSubmatch (seq bot k) u = some m) :
    1 < m.length ∧ m.getD 1 [] ≠ [] := by
  obtain ⟨x, hx, rfl⟩ := findStringSubmatch_anchored h
  have h1 := hk u.length u [] x hx
  rw [hN]
  refine ⟨by simp, ?_⟩
  have : (List.range (N + 1 + 1)) = 0 :: 1 :: (List.range N).map (fun j => j + 2) := by
    rw [List.range_succ_eq_map, List.range_succ_eq_map]
    simp [Function.comp_def]
  rw [this]
  simp only [List.map_cons, List.getD_cons_succ, List.getD_cons_zero]
  rw [capText_cons_ne (by decide)]
  exact h1

/-- The loop of `handler` returns what the first matching pattern captured. -/
theorem scanExps_eq_firstMatch (u : List Char) (es : List Re) (i : Nat) :
    scanExps u es =
      match firstMatch u es i with
      | some (_, m) => (true, if m.length > 1 then m.getD 1 [] else [])
      | none => (false, []) := by
  induction es generalizing i with
  | nil => rfl
  | cons e es ih =>
    simp only [scanExps, firstMatch]
    cases h : findStringSubmatch e u with
    | none => exact ih (i + 1)
    | some m => rfl

theorem setsOwner_exp0 : SetsOwner (cat [scheme, str "github.com/".toList, segment 1, chr '/',
    segment 2, chr '/', alt (str "releases".toList) (str "archive".toList), chr '/',
    star true dot, eot]) := by
  refine setsOwner_seq _ (setsOwner_seq _ (setsOwner_segment ?_))
  simp [cat, groups, groups_str, segment, chr, dot, plus, notChr]

theorem setsOwner_exp1 : SetsOwner (cat [scheme, str "github.com/".toList, segment 1, chr '/',
    segment 2, chr '/', alt (str "blob".toList) (str "raw".toList), chr '/',
    star true dot, eot]) := by
  refine setsOwner_seq _ (setsOwner_seq _ (setsOwner_segment ?_))
  simp [cat, groups, groups_str, segment, chr, dot, plus, notChr]

theorem setsOwner_exp2 : SetsOwner (cat [scheme, str "github.com/".toList, segment 1, chr '/',
    segment 2, chr '/', alt (str "info".toList) (str "git-".toList), star true dot, eot]) := by
  refine setsOwner_seq _ (setsOwner_seq _ (setsOwner_segment ?_))
  simp [cat, groups, groups_str, segment, chr, dot, plus, notChr]

theorem setsOwner_exp3 : SetsOwner (cat [scheme, str "raw.github".toList,
    alt (str "usercontent".toList) eps, str ".com/".toList, segment 1, chr '/', segment 2,
    chr '/', plus false dot, chr '/', plus true dot, eot]) := by
  refine setsOwner_seq _ (setsOwner_seq _ (setsOwner_seq _ (setsOwner_seq _
    (setsOwner_segment ?_))))
  simp [cat, groups, groups_str, segment, chr, dot, plus, notChr]

theorem setsOwner_exp4 : SetsOwner (cat [scheme, str "gist.github.com/".toList, segment 1,
    chr '/', plus false dot, chr '/', plus true dot, eot]) := by
  refine setsOwner_seq _ (setsOwner_seq _ (setsOwner_segment ?_))
  simp [cat, groups, groups_str, segment, chr, dot, plus, notChr]

/-- The first five patterns of `exps` capture a non-empty owner. -/
theorem owner_nonempty {e : Re} (he : e ∈ [exp0, exp1, exp2, exp3, exp4]) {u : List Char}
    {m : List (List Char)} (h : findStringSubmatch e u = some m) :
    1 < m.length ∧ m.getD 1 [] ≠ [] := by
  simp only [List.mem_cons, List.mem_singleton, List.not_mem_nil, or_false] at he
  rcases he with rfl | rfl | rfl | rfl | rfl
  · exact submatch_owner 1
      (by simp [cat, numSubexp, numSubexp_str, scheme, segment, chr, dot, plus, notChr, opt])
      setsOwner_exp0 h
  · exact submatch_owner 1
      (by simp [cat, numSubexp, numSubexp_str, scheme, segment, chr, dot, plus, notChr, opt])
      setsOwner_exp1 h
  · exact submatch_owner 1
      (by simp [cat, numSubexp, numSubexp_str, scheme, segment, chr, dot, plus, notChr, opt])
      setsOwner_exp2 h
  · exact submatch_owner 1
      (by simp [cat, numSubexp, numSubexp_str, scheme, segment, chr, dot, plus, notChr, opt])
      setsOwner_exp3 h
  · exact submatch_owner 0
      (by simp [cat, numSubexp, numSubexp_str, scheme, segment, chr, dot, plus, notChr, opt])
      setsOwner_exp4 h

theorem contains_of_append (a sub b : List Char) : contains (a ++ (sub ++ b)) sub = true := by
  have hp : sub.isPrefixOf (sub ++ b) = true :=
    List.isPrefixOf_iff_prefix.mpr (List.prefix_append sub b)
  induction a with
  | nil =>
    cases hs : sub ++ b with
    | nil => rw [hs] at hp; simpa [contains] using hp
    | cons c t => rw [hs] at hp; simp [contains, hp]
  | cons c a ih => simp [contains, ih]

/-- The pattern for the API host accepts only URLs that contain the API host. -/
theorem api_of_exp5 {u : List Char} (h : matchString exp5 u = true) :
    contains u "api.github.com".toList = true := by
  obtain ⟨x, hx⟩ := matchString_anchored h
  simp only [cat] at hx
  obtain ⟨y, hy, hx⟩ := mem_run_seq.mp hx
  obtain ⟨z, hz, _⟩ := mem_run_seq.mp hx
  obtain ⟨h1, _⟩ := mem_run_str.mp hz
  have key : ∀ pre : List Char, u = pre ++ y.1 → contains u "api.github.com".toList = true := by
    intro pre hu
    rw [hu, h1]
    have : "api.github.com/".toList ++ z.1 = "api.github.com".toList ++ ('/' :: z.1) := by simp
    rw [this]
    exact contains_of_append _ _ _
  rcases (mem_run_scheme hy).2 with h2 | h2 | h2
  · exact key [] h2
  · exact key _ h2
  · exact key _ h2

theorem segment_unique {o o1 a b : List Char} (ho : '/' ∉ o) (ho1 : '/' ∉ o1)
    (h : o ++ '/' :: a = o1 ++ '/' :: b) : o = o1 ∧ a = b := by
  induction o generalizing o1 with
  | nil =>
    cases o1 with
    | nil => simpa using h
    | cons d o2 =>
      simp only [List.nil_append, List.cons_append, List.cons.injEq] at h
      exact absurd (h.1 ▸ List.mem_cons_self _ _) ho1
  | cons d o ih =>
    cases o1 with
    | nil =>
      simp only [List.nil_append, List.cons_append, List.cons.injEq] at h
      exact absurd (h.1 ▸ List.mem_cons_self _ _) ho
    | cons d1 o2 =>
      simp only [List.cons_append, List.cons.injEq] at h
      have ho2 : '/' ∉ o := fun hm => ho (List.mem_cons_of_mem _ hm)
      have ho3 : '/' ∉ o2 := fun hm => ho1 (List.mem_cons_of_mem _ hm)
      obtain ⟨e1, e2⟩ := ih ho2 ho3 h.2
      exact ⟨by rw [h.1, e1], e2⟩

/-- The common beginning of the first three patterns: an optional scheme, the
host `github.com`, and two segments, each followed by `/`; the segments are
recorded as groups 1 and 2. -/
theorem mem_run_repo {n : Nat} {k : Re} {u : List Char} {c : Caps} {x : Outcome}
    (hx : x ∈ run n (seq scheme (seq (str "github.com/".toList) (seq (segment 1)
      (seq (chr '/') (seq (segment 2) (seq (chr '/') k)))))) u c) :
    ∃ pre o r t,
      (pre = [] ∨ pre = "http://".toList ∨ pre = "https://".toList) ∧
      u = pre ++ ("github.com/".toList ++ (o ++ '/' :: (r ++ '/' :: t))) ∧
      '/' ∉ o ∧ '/' ∉ r ∧ x ∈ run n k t ((2, r) :: (1, o) :: c) := by
  obtain ⟨y1, hy1, hx⟩ := mem_run_seq.mp hx
  obtain ⟨y2, hy2, hx⟩ := mem_run_seq.mp hx
  obtain ⟨y3, hy3, hx⟩ := mem_run_seq.mp hx
  obtain ⟨y4, hy4, hx⟩ := mem_run_seq.mp hx
  obtain ⟨y5, hy5, hx⟩ := mem_run_seq.mp hx
  obtain ⟨y6, hy6, hx⟩ := mem_run_seq.mp hx
  obtain ⟨c1, h1⟩ := mem_run_scheme hy1
  obtain ⟨h2, c2⟩ := mem_run_str.mp hy2
  obtain ⟨o, _, ho, h3, c3⟩ := mem_run_segment hy3
  obtain ⟨h4, c4⟩ := mem_run_chr.mp hy4
  obtain ⟨r, _, hr, h5, c5⟩ := mem_run_segment hy5
  obtain ⟨h6, c6⟩ := mem_run_chr.mp hy6
  have hy : y1.1 = "github.com/".toList ++ (o ++ '/' :: (r ++ '/' :: y6.1)) := by
    rw [h2, h3, h4, h5, h6]
  have hc : y6.2 = (2, r) :: (1, o) :: c := by
    rw [c6, c5, c4, c3, c2, c1]
  rw [hc] at hx
  rcases h1 with h1 | h1 | h1
  · exact ⟨[], o, r, y6.1, Or.inl rfl, by rw [h1, hy]; rfl, ho, hr, hx⟩
  · exact ⟨_, o, r, y6.1, Or.inr (Or.inl rfl), by rw [h1, hy], ho, hr, hx⟩
  · exact ⟨_, o, r, y6.1, Or.inr (Or.inr rfl), by rw [h1, hy], ho, hr, hx⟩

/-- A URL has one reading as scheme, host, owner, repository and rest. -/
theorem repo_tail_unique {pre pre1 o o1 r r1 t t1 : List Char}
    (hp : pre = [] ∨ pre = "http://".toList ∨ pre = "https://".toList)
    (hp1 : pre1 = [] ∨ pre1 = "http://".toList ∨ pre1 = "https://".toList)
    (ho : '/' ∉ o) (ho1 : '/' ∉ o1) (hr : '/' ∉ r) (hr1 : '/' ∉ r1)
    (h : pre ++ ("github.com/".toList ++ (o ++ '/' :: (r ++ '/' :: t))) =
      pre1 ++ ("github.com/".toList ++ (o1 ++ '/' :: (r1 ++ '/' :: t1)))) :
    o = o1 ∧ r = r1 ∧ t = t1 := by
  have key : o ++ '/' :: (r ++ '/' :: t) = o1 ++ '/' :: (r1 ++ '/' :: t1) := by
    rcases hp with rfl | rfl | rfl <;> rcases hp1 with rfl | rfl | rfl <;>
      simp at h <;> exact h
  obtain ⟨e1, e2⟩ := segment_unique ho ho1 key
  obtain ⟨e3, e4⟩ := segment_unique hr hr1 e2
  exact ⟨e1, e3, e4⟩

/-- No URL is both a release or archive URL and a blob or raw URL. -/
theorem exp0_excludes_exp1 {u : List Char} (h0 : matchString exp0 u = true) :
    matchString exp1 u = false := by
  cases h1 : matchString exp1 u with
  | false => rfl
  | true =>
    exfalso
    obtain ⟨x, hx⟩ := matchString_anchored h0
    obtain ⟨x1, hx1⟩ := matchString_anchored h1
    simp only [cat] at hx hx1
    obtain ⟨pre, o, r, t, hp, hu, ho, hr, hx⟩ := mem_run_repo hx
    obtain ⟨pre1, o1, r1, t1, hp1, hu1, ho1, hr1, hx1⟩ := mem_run_repo hx1
    obtain ⟨_, _, ht⟩ := repo_tail_unique hp hp1 ho ho1 hr hr1 (hu.symm.trans hu1)
    subst ht
    obtain ⟨y, hy, hx⟩ := mem_run_seq.mp hx
    obtain ⟨z, hz, _⟩ := mem_run_seq.mp hx
    obtain ⟨y1, hy1, hx1⟩ := mem_run_seq.mp hx1
    obtain ⟨z1, hz1, _⟩ := mem_run_seq.mp hx1
    obtain ⟨e, _⟩ := mem_run_chr.mp hz
    obtain ⟨e1, _⟩ := mem_run_chr.mp hz1
    rcases mem_run_alt.mp hy with hy | hy <;> rcases mem_run_alt.mp hy1 with hy1 | hy1 <;>
      · have a := (mem_run_str.mp hy).1
        have a1 := (mem_run_str.mp hy1).1
        rw [a] at a1
        simp at a1

/-! ## Normalization in closed form -/

theorem search_of_head {n : Nat} {r : Re} {s : List Char} {x : Outcome}
    (h : (run n r s []).head? = some x) : search n r s = some x.2 := by
  cases s with
  | nil => simp [search, h]
  | cons a t => simp [search, h]

theorem run_str (n : Nat) (w s : List Char) (c : Caps) :
    run n (str w) s c = if w.isPrefixOf s then [(s.drop w.length, c)] else [] := by
  induction w generalizing s with
  | nil => simp [str, run]
  | cons a w ih =>
    cases s with
    | nil => simp [str, run, chr]
    | cons b t =>
      by_cases hab : b = a
      · subst hab
        simp [str, run, chr, ih, List.isPrefixOf]
      · have hab2 : a ≠ b := fun e => hab e.symm
        simp [str, run, chr, hab, hab2, List.isPrefixOf]

theorem head_flatMap_cons {x : Outcome} {l : List Outcome} {f : Outcome → List Outcome}
    {y : Outcome} (h : (f x).head? = some y) : ((x :: l).flatMap f).head? = some y := by
  simp [List.flatMap_cons, List.head?_append, h]

theorem run_seq (n : Nat) (a b : Re) (s : List Char) (c : Caps) :
    run n (seq a b) s c = (run n a s c).flatMap (fun x => run n b x.1 x.2) := by
  rw [run]

theorem run_alt (n : Nat) (a b : Re) (s : List Char) (c : Caps) :
    run n (alt a b) s c = run n a s c ++ run n b s c := by
  rw [run]

theorem run_eps (n : Nat) (s : List Char) (c : Caps) : run n eps s c = [(s, c)] := by
  rw [run]

theorem run_grp (n i : Nat) (a : Re) (s : List Char) (c : Caps) :
    run n (grp i a) s c =
      (run n a s c).map (fun x => (x.1, (i, s.take (s.length - x.1.length)) :: x.2)) := by
  rw [run]

theorem run_star (n : Nat) (g : Bool) (a : Re) (s : List Char) (c : Caps) :
    run n (star g a) s c = iter g (fun s1 c1 => run n a s1 c1) s.length s c := by
  rw [run]

theorem run_bot_self (s : List Char) (c : Caps) : run s.length bot s c = [(s, c)] := by
  simp [run]

theorem run_cls_nil (n : Nat) (p : Char → Bool) (c : Caps) : run n (cls p) [] c = [] := by
  rw [run]

theorem run_cls_cons (n : Nat) (p : Char → Bool) (a : Char) (t : List Char) (c : Caps) :
    run n (cls p) (a :: t) c = if p a = true then [(t, c)] else [] := by
  rw [run]

theorem iter_greedy_cls_head (n : Nat) (p : Char → Bool) (c : Caps) :
    ∀ (k : Nat) (s : List Char), s.length ≤ k →
      (iter true (fun s1 c1 => run n (cls p) s1 c1) k s c).head? = some (s.dropWhile p, c) := by
  intro k
  induction k with
  | zero =>
    intro s hs
    have : s = [] := List.length_eq_zero.mp (Nat.le_zero.mp hs)
    subst this
    rfl
  | succ k ih =>
    intro s hs
    cases s with
    | nil => simp only [iter, run_cls_nil, List.filter_nil, List.flatMap_nil, if_true,
        List.nil_append, List.head?_cons, List.dropWhile_nil]
    | cons a t =>
      have ht : t.length ≤ k := by simpa using hs
      by_cases hp : p a = true
      · have h := ih t ht
        simp only [iter, run_cls_cons, hp, if_true, List.filter_cons, List.length_cons,
          Nat.lt_succ_self, decide_True, List.filter_nil, List.flatMap_cons, List.flatMap_nil,
          List.append_nil, List.head?_append, h, Option.or_some, List.dropWhile_cons]
      · simp only [iter, run_cls_cons, hp, if_false, List.filter_nil, List.flatMap_nil, if_true,
          List.nil_append, List.head?_cons, List.dropWhile_cons]
        simp

theorem take_sub_dropWhile (p : Char → Bool) (s : List Char) :
    s.take (s.length - (s.dropWhile p).length) = s.takeWhile p := by
  have h := List.takeWhile_append_dropWhile p s
  have hl : s.length = (s.takeWhile p).length + (s.dropWhile p).length := by
    rw [← List.length_append, h]
  rw [hl, Nat.add_sub_cancel]
  have h2 := @List.take_left _ (s.takeWhile p) (s.dropWhile p)
  rw [h] at h2
  exact h2

/-- The preferred outcome of `(.*)` as group `i`: everything up to the first line
feed. -/
theorem head_group_dots (n i : Nat) (s : List Char) (c : Caps) :
    (run n (grp i (star true dot)) s c).head? =
      some (s.dropWhile (fun a => a != '\n'), (i, s.takeWhile (fun a => a != '\n')) :: c) := by
  have h := iter_greedy_cls_head n (fun a => a != '\n') c s.length s (Nat.le_refl _)
  rw [run_grp, dot, run_star, List.head?_map, h]
  simp only [Option.map_some', take_sub_dropWhile]

/-- The preferred outcome of `/?k` when `k` always has one. -/
theorem head_opt_slash {n : Nat} {k : Re} {F : List Char → Caps → Outcome}
    (hk : ∀ s c, (run n k s c).head? = some (F s c)) (s : List Char) (c : Caps) :
    (run n (seq (opt (chr '/')) k) s c).head? = some (F (dropSlash s) c) := by
  cases s with
  | nil => simp [run, opt, chr, dropSlash, hk]
  | cons a t =>
    by_cases ha : a = '/'
    · subst ha
      simp [run, opt, chr, dropSlash, hk, List.head?_append]
    · simp [run, opt, chr, dropSlash, hk, ha]

/-- The preferred outcome of the pattern of `handler` after `^`: group 2 is the
path without scheme and without up to two slashes, up to the first line feed. -/
theorem head_re_body (n : Nat) (p : List Char) :
    ∃ rest c1, (run n (cat [opt (grp 1 (alt (str "http:".toList) (str "https:".toList))),
        opt (chr '/'), opt (chr '/'), grp 2 (star true dot)]) p []).head? =
      some (rest, (2, (dropSlash (dropSlash (dropScheme p))).takeWhile (fun a => a != '\n'))
        :: c1) := by
  have hK := fun s c => head_opt_slash (head_opt_slash (head_group_dots n 2)) s c
  simp only [cat]
  rw [run_seq]
  by_cases h1 : "http:".toList.isPrefixOf p = true
  · have hd : dropScheme p = p.drop 5 := by simp only [dropScheme, h1, if_true]
    have hL : ∃ x l, run n (opt (grp 1 (alt (str "http:".toList) (str "https:".toList)))) p []
        = (p.drop 5, x) :: l := by
      simp only [opt, run_alt, run_grp, run_str, h1, if_true, List.map_append, List.map_cons,
        List.cons_append]
      exact ⟨_, _, rfl⟩
    obtain ⟨x, l, hL⟩ := hL
    rw [hL, hd]
    exact ⟨_, _, head_flatMap_cons (hK _ _)⟩
  · by_cases h2 : "https:".toList.isPrefixOf p = true
    · have hd : dropScheme p = p.drop 6 := by simp only [dropScheme, h1, h2, if_true, Bool.false_eq_true, if_false]
      have hL : ∃ x l, run n (opt (grp 1 (alt (str "http:".toList) (str "https:".toList)))) p []
          = (p.drop 6, x) :: l := by
        simp only [opt, run_alt, run_grp, run_str, h1, h2, if_true, Bool.false_eq_true, if_false, List.map_append,
          List.map_cons, List.map_nil, List.cons_append, List.nil_append]
        exact ⟨_, _, rfl⟩
      obtain ⟨x, l, hL⟩ := hL
      rw [hL, hd]
      exact ⟨_, _, head_flatMap_cons (hK _ _)⟩
    · have hd : dropScheme p = p := by simp only [dropScheme, h1, h2, Bool.false_eq_true, if_false]
      have hL : run n (opt (grp 1 (alt (str "http:".toList) (str "https:".toList)))) p []
          = [(p, [])] := by
        simp only [opt, run_alt, run_grp, run_str, run_eps, h1, h2, Bool.false_eq_true, if_false, List.map_append,
          List.map_nil, List.nil_append]
      rw [hL, hd]
      exact ⟨_, _, head_flatMap_cons (hK _ _)⟩

/-- Normalization in closed form: the scheme and up to two slashes are dropped,
the rest is kept up to the first line feed, and `https://` is put in front. The
pattern of `handler` matches every path. -/
theorem normalize_eq (p : List Char) :
    normalize p = some ("https://".toList ++
      (dropSlash (dropSlash (dropScheme p))).takeWhile (fun a => a != '\n')) := by
  obtain ⟨rest, c1, h⟩ := head_re_body p.length p
  have h0 : (run p.length (grp 0 re) p []).head? =
      some (rest, (0, p.take (p.length - rest.length)) ::
        (2, (dropSlash (dropSlash (dropScheme p))).takeWhile (fun a => a != '\n')) :: c1) := by
    have hb : run p.length re p [] = run p.length (cat [opt (grp 1 (alt (str "http:".toList)
        (str "https:".toList))), opt (chr '/'), opt (chr '/'), grp 2 (star true dot)]) p [] := by
      simp only [re, cat]
      rw [run_seq, run_bot_self]
      simp only [List.flatMap_cons, List.flatMap_nil, List.append_nil]
    rw [run_grp, hb, List.head?_map, h]
    rfl
  have hn : numSubexp re = 2 := by
    simp [re, cat, numSubexp, numSubexp_str, opt, chr, dot]
  simp only [normalize, findStringSubmatch, search_of_head h0, hn, Option.map_some']
  have hr : List.range (2 + 1) = [0, 1, 2] := by decide
  rw [hr]
  simp only [List.map_cons, List.getD_cons_succ, List.getD_cons_zero]
  rw [capText_cons_ne (by decide), capText_cons_self]

/-! ## The fuel of a repetition -/

theorem flatMap_congr_mem {l : List Outcome} {f g : Outcome → List Outcome}
    (h : ∀ x ∈ l, f x = g x) : l.flatMap f = l.flatMap g := by
  induction l with
  | nil => rfl
  | cons a l ih =>
    rw [List.flatMap_cons, List.flatMap_cons, h a (List.mem_cons_self _ _),
      ih (fun x hx => h x (List.mem_cons_of_mem _ hx))]

/-- A repetition that has as much fuel as there are characters left does not
change when it is given more: every round reads a character, so the fuel given
by `run` never runs out. -/
theorem iter_fuel_succ (g : Bool) (step : List Char → Caps → List Outcome) :
    ∀ (k : Nat) (s : List Char) (c : Caps), s.length ≤ k →
      Re.iter g step (k + 1) s c = Re.iter g step k s c := by
  intro k
  induction k with
  | zero =>
    intro s c hs
    have h0 : s.length = 0 := Nat.le_zero.mp hs
    have hf : (step s c).filter (fun x => decide (x.1.length < s.length)) = [] := by
      rw [List.filter_eq_nil_iff]
      intro x _
      simp [h0]
    cases g <;> simp [Re.iter, hf]
  | succ k ih =>
    intro s c hs
    have hcongr : ((step s c).filter (fun x => decide (x.1.length < s.length))).flatMap
          (fun x => Re.iter g step (k + 1) x.1 x.2) =
        ((step s c).filter (fun x => decide (x.1.length < s.length))).flatMap
          (fun x => Re.iter g step k x.1 x.2) := by
      apply flatMap_congr_mem
      intro x hx
      have hlt : x.1.length < s.length := by
        simpa using (List.mem_filter.mp hx).2
      exact ih x.1 x.2 (by omega)
    rw [Re.iter, hcongr]
    conv_rhs => rw [Re.iter]

/-- Any fuel from the length of the text on gives the outcomes `run` computes. -/
theorem iter_fuel (g : Bool) (step : List Char → Caps → List Outcome) (s : List Char)
    (c : Caps) (d : Nat) :
    Re.iter g step (s.length + d) s c = Re.iter g step s.length s c := by
  induction d with
  | zero => rfl
  | succ d ih => rw [← Nat.add_assoc, iter_fuel_succ g step _ s c (by omega), ih]

/-! ## Properties of `handler` -/

/-- The pattern `handler` tests before the rewrite is the second of `exps`. -/
theorem exps_one : exps[1]? = some exp1 := rfl

theorem firstMatch_mem {u : List Char} {es : List Re} {k i : Nat} {m : List (List Char)}
    (h : firstMatch u es k = some (i, m)) : ∃ e ∈ es, findStringSubmatch e u = some m := by
  induction es generalizing k with
  | nil => simp [firstMatch] at h
  | cons e es ih =>
    simp only [firstMatch] at h
    cases hf : findStringSubmatch e u with
    | none =>
      rw [hf] at h
      obtain ⟨e1, he1, h1⟩ := ih h
      exact ⟨e1, List.mem_cons_of_mem _ he1, h1⟩
    | some m1 =>
      rw [hf] at h
      simp only [Option.some.injEq, Prod.mk.injEq] at h
      exact ⟨e, List.mem_cons_self _ _, by rw [hf, h.2]⟩

/-- When the blob/raw pattern matches, it is the first pattern of `exps` that does. -/
theorem firstMatch_exp1 {u : List Char} {i : Nat} {m : List (List Char)}
    (h : firstMatch u exps 0 = some (i, m)) (h1 : matchString exp1 u = true) : i = 1 := by
  simp only [exps, firstMatch] at h
  cases h0 : findStringSubmatch exp0 u with
  | some m0 =>
    have : matchString exp0 u = true := by rw [matchString_eq_isSome, h0]; rfl
    rw [exp0_excludes_exp1 this] at h1
    cases h1
  | none =>
    rw [h0] at h
    rw [matchString_eq_isSome] at h1
    obtain ⟨m1, hm1⟩ := Option.isSome_iff_exists.mp h1
    rw [hm1] at h
    simp only [Option.some.injEq, Prod.mk.injEq] at h
    exact h.1.symm

/-- For a URL that is no API request, the first matching pattern of `exps` has more
than one submatch and a non-empty owner. -/
theorem firstMatch_owner {u : List Char} {i : Nat} {m : List (List Char)}
    (hapi : contains u "api.github.com".toList = false)
    (h : firstMatch u exps 0 = some (i, m)) : 1 < m.length ∧ m.getD 1 [] ≠ [] := by
  obtain ⟨e, he, hm⟩ := firstMatch_mem h
  simp only [exps, List.mem_cons, List.mem_singleton, List.not_mem_nil, or_false] at he
  have h5 : e ≠ exp5 := by
    rintro rfl
    have : matchString exp5 u = true := by rw [matchString_eq_isSome, hm]; rfl
    rw [api_of_exp5 this] at hapi
    cases hapi
  refine owner_nonempty ?_ hm
  simp only [List.mem_cons, List.mem_singleton, List.not_mem_nil, or_false]
  rcases he with h | h | h | h | h | h
  · exact Or.inl h
  · exact Or.inr (Or.inl h)
  · exact Or.inr (Or.inr (Or.inl h))
  · exact Or.inr (Or.inr (Or.inr (Or.inl h)))
  · exact Or.inr (Or.inr (Or.inr (Or.inr h)))
  · exact absurd h h5

/-- C2. A path that is no API request and whose first matching pattern of `exps`
captures an owner of the denylist is answered 403 "Access denied: User is
blacklisted"; `handler` calls neither `proxy` nor `handleAPIRequest`, and no
request is sent upstream. -/
theorem denylisted_owner_rejected (blacklist : List (List Char)) (client : Client)
    (c : Context) (u : List Char) (i : Nat) (m : List (List Char))
    (hu : normalize (trimPrefix c.requestURI ['/']) = some u)
    (hapi : contains u "api.github.com".toList = false)
    (hm : firstMatch u exps 0 = some (i, m))
    (hbl : m.getD 1 [] ∈ blacklist) :
    handler blacklist c.requestURI = .respond 403 "Access denied: User is blacklisted" ∧
      serve blacklist client c = ⟨.text 403 "Access denied: User is blacklisted", []⟩ := by
  obtain ⟨hlen, hown⟩ := firstMatch_owner hapi hm
  have hne : trimPrefix c.requestURI ['/'] ≠ [] := by
    intro h0
    have h1 : normalize [] = some "https://".toList := by decide
    have h2 : firstMatch "https://".toList exps 0 = none := by decide
    rw [h0, h1] at hu
    simp only [Option.some.injEq] at hu
    rw [← hu, h2] at hm
    cases hm
  have hscan : scanExps u exps = (true, m.getD 1 []) := by
    rw [scanExps_eq_firstMatch u exps 0, hm]
    simp only [gt_iff_lt, hlen, if_true]
  have hh : handler blacklist c.requestURI =
      .respond 403 "Access denied: User is blacklisted" := by
    simp only [handler, hne, if_false, hu, hapi, Bool.false_eq_true, hscan, Bool.not_true,
      ne_eq, hown, not_false_eq_true, hbl, and_self, if_true]
  exact ⟨hh, by simp only [serve, hh]⟩

/-- The owner `o` on the denylist: a blob URL of `o` is answered 403, nothing is sent. -/
theorem denylisted_owner_rejected_witness :
    serve ["o".toList] ⟨fun _ _ => none, fun _ => .error "unreachable"⟩
        ⟨"GET", "/https://github.com/o/r/blob/main/f.txt".toList, [], [], []⟩ =
      ⟨.text 403 "Access denied: User is blacklisted", []⟩ :=
  (denylisted_owner_rejected ["o".toList] ⟨fun _ _ => none, fun _ => .error "unreachable"⟩
    ⟨"GET", "/https://github.com/o/r/blob/main/f.txt".toList, [], [], []⟩
    "https://github.com/o/r/blob/main/f.txt".toList 1
    ["https://github.com/o/r/blob/main/f.txt".toList, "o".toList, "r".toList]
    (by decide) (by decide) (by decide) (by decide)).2

/-- C9. When a path is accepted (`handler` ends with a call of `proxy`) and the
first pattern of `exps` that matches its normalized URL is not the blob/raw pattern
(index 1), the target handed to `proxy` is the normalized URL, unchanged, also when
it contains `/blob/`. -/
theorem other_families_unchanged (blacklist : List (List Char)) (uri u : List Char)
    (i : Nat) (m : List (List Char))
    (hu : normalize (trimPrefix uri ['/']) = some u)
    (hm : firstMatch u exps 0 = some (i, m)) (hi : i ≠ 1)
    (hp : ∃ t, handler blacklist uri = .proxy t) : handler blacklist uri = .proxy u := by
  have h1 : matchString exp1 u = false := by
    cases h : matchString exp1 u with
    | false => rfl
    | true => exact absurd (firstMatch_exp1 hm h) hi
  obtain ⟨t, hp⟩ := hp
  rw [hp]
  simp only [handler, hu] at hp
  split_ifs at hp with a1 a2 a3 a4 a5
  · rw [h1] at a5
    cases a5
  · exact hp.symm

/-- A release URL with `/blob/` in it goes to `proxy` as it is. -/
theorem other_families_unchanged_witness :
    handler [] "/github.com/o/r/releases/blob/x".toList =
      .proxy "https://github.com/o/r/releases/blob/x".toList :=
  other_families_unchanged [] "/github.com/o/r/releases/blob/x".toList
    "https://github.com/o/r/releases/blob/x".toList
    0 ["https://github.com/o/r/releases/blob/x".toList, "o".toList, "r".toList]
    (by decide) (by decide) (by decide)
    ⟨"https://github.com/o/r/releases/blob/x".toList, by decide⟩

theorem scanExps_found {u : List Char} {es : List Re} (h : (scanExps u es).1 = true) :
    ∃ e ∈ es, matchString e u = true := by
  induction es with
  | nil => simp [scanExps] at h
  | cons e es ih =>
    cases hf : findStringSubmatch e u with
    | some m =>
      exact ⟨e, List.mem_cons_self _ _, by rw [matchString_eq_isSome, hf]; rfl⟩
    | none =>
      simp only [scanExps, hf] at h
      obtain ⟨e1, he1, h1⟩ := ih h
      exact ⟨e1, List.mem_cons_of_mem _ he1, h1⟩

/-- What `handler` hands to `proxy` comes from a normalized URL that one of the
first five patterns of `exps` matches: the host is `github.com`, `raw.github.com`,
`raw.githubusercontent.com` or `gist.github.com`. -/
theorem proxy_target_matches (blacklist : List (List Char)) (uri t : List Char)
    (hp : handler blacklist uri = .proxy t) :
    ∃ u, normalize (trimPrefix uri ['/']) = some u ∧
      contains u "api.github.com".toList = false ∧
      ∃ e ∈ [exp0, exp1, exp2, exp3, exp4], matchString e u = true := by
  simp only [handler] at hp
  split_ifs at hp with a1
  cases hu : normalize (trimPrefix uri ['/']) with
  | none => simp only [hu] at hp; cases hp
  | some u =>
    simp only [hu] at hp
    split_ifs at hp with a2 a3 a4 a5
    all_goals
      have hapi : contains u "api.github.com".toList = false := by simpa using a2
      have hfound : (scanExps u exps).1 = true := by simpa using a3
      obtain ⟨e, he, hm⟩ := scanExps_found hfound
      refine ⟨u, rfl, hapi, e, ?_, hm⟩
      simp only [exps, List.mem_cons, List.mem_singleton, List.not_mem_nil, or_false] at he
      simp only [List.mem_cons, List.mem_singleton, List.not_mem_nil, or_false]
      rcases he with h | h | h | h | h | h
      · exact Or.inl h
      · exact Or.inr (Or.inl h)
      · exact Or.inr (Or.inr (Or.inl h))
      · exact Or.inr (Or.inr (Or.inr (Or.inl h)))
      · exact Or.inr (Or.inr (Or.inr (Or.inr h)))
      · rw [h] at hm
        rw [api_of_exp5 hm] at hapi
        cases hapi

theorem scanExps_none (u : List Char) (es : List Re)
    (h : ∀ e ∈ es, matchString e u = false) : scanExps u es = (false, []) := by
  induction es with
  | nil => rfl
  | cons e es ih =>
    have he := h e (List.mem_cons_self _ _)
    rw [matchString_eq_isSome] at he
    cases hf : findStringSubmatch e u with
    | some m => rw [hf] at he; cases he
    | none =>
      simp only [scanExps, hf]
      exact ih (fun e1 h1 => h e1 (List.mem_cons_of_mem _ h1))

/-- C6. An empty path (after one leading `/` is removed) is answered 400, and a
non-empty path whose normalized URL is no API request and matches no pattern of
`exps` is answered 403 "Invalid GitHub URL format"; in both cases no request is
sent upstream. -/
theorem handler_rejects (blacklist : List (List Char)) (client : Client) (c : Context) :
    (trimPrefix c.requestURI ['/'] = [] →
      serve blacklist client c = ⟨.text 400 "Empty path", []⟩) ∧
    (∀ u, trimPrefix c.requestURI ['/'] ≠ [] →
      normalize (trimPrefix c.requestURI ['/']) = some u →
      contains u "api.github.com".toList = false →
      (∀ e ∈ exps, matchString e u = false) →
      serve blacklist client c = ⟨.text 403 "Invalid GitHub URL format", []⟩) := by
  constructor
  · intro h
    simp only [serve, handler, h, if_true]
  · intro u hne hu hapi hnone
    have hs := scanExps_none u exps hnone
    simp only [serve, handler, hne, if_false, hu, hapi, Bool.false_eq_true, hs, Bool.not_false,
      if_true]

/-- The paths `/` and `/evil.com/x`. -/
theorem handler_rejects_witness :
    serve [] ⟨fun _ _ => none, fun _ => .error "unreachable"⟩
        ⟨"GET", "/".toList, [], [], []⟩ = ⟨.text 400 "Empty path", []⟩ ∧
      serve [] ⟨fun _ _ => none, fun _ => .error "unreachable"⟩
        ⟨"GET", "/evil.com/x".toList, [], [], []⟩ =
        ⟨.text 403 "Invalid GitHub URL format", []⟩ :=
  ⟨(handler_rejects [] ⟨fun _ _ => none, fun _ => .error "unreachable"⟩
      ⟨"GET", "/".toList, [], [], []⟩).1 (by decide),
    (handler_rejects [] ⟨fun _ _ => none, fun _ => .error "unreachable"⟩
      ⟨"GET", "/evil.com/x".toList, [], [], []⟩).2 "https://evil.com/x".toList
      (by decide) (by decide) (by decide) (by decide)⟩

/-! ## Properties of normalization -/

theorem dropSlash_of_head {r : List Char} (h : r.head? ≠ some '/') : dropSlash r = r := by
  cases r with
  | nil => rfl
  | cons a t =>
    have : a ≠ '/' := by simpa using h
    simp [dropSlash, this]

theorem dropSlash_slash (t : List Char) : dropSlash ('/' :: t) = t := by
  simp [dropSlash]

theorem takeWhile_idem (p : Char → Bool) (l : List Char) :
    (l.takeWhile p).takeWhile p = l.takeWhile p := by
  induction l with
  | nil => rfl
  | cons a t ih =>
    by_cases h : p a = true
    · simp [List.takeWhile_cons, h, ih]
    · simp [List.takeWhile_cons, h]

theorem takeWhile_no_newline {r : List Char} (h : '\n' ∉ r) :
    r.takeWhile (fun a => a != '\n') = r := by
  rw [List.takeWhile_eq_self_iff]
  intro a ha
  have : a ≠ '\n' := fun e => h (e ▸ ha)
  simpa using this

/-- C7, counterexample. Of three slashes after the scheme only two are removed:
`http:///x` becomes `https:///x`, not `https://x`. -/
theorem normalize_three_slashes :
    ¬ (∀ (s : List Char) (k : Nat) (r : List Char),
        (s = "http:".toList ∨ s = "https:".toList) → r.head? ≠ some '/' →
        normalize (s ++ List.replicate k '/' ++ r) = some ("https://".toList ++ r)) := by
  intro h
  have h3 := h "http:".toList 3 "x".toList (Or.inl rfl) (by decide)
  revert h3
  decide

/-- C7, amended. For a scheme `http:` or `https:` followed by at most two slashes
and a remainder that does not begin with `/` and holds no line feed, the
normalized URL is `https://` followed by the remainder. -/
theorem normalize_strips_scheme (s : List Char) (k : Nat) (r : List Char)
    (hs : s = "http:".toList ∨ s = "https:".toList) (hk : k ≤ 2)
    (hr : r.head? ≠ some '/') (hnl : '\n' ∉ r) :
    normalize (s ++ List.replicate k '/' ++ r) = some ("https://".toList ++ r) := by
  rw [normalize_eq]
  have hk3 : k = 0 ∨ k = 1 ∨ k = 2 := by omega
  have key : dropSlash (dropSlash (dropScheme (s ++ List.replicate k '/' ++ r))) = r := by
    rcases hs with rfl | rfl <;> rcases hk3 with rfl | rfl | rfl <;>
      simp [dropScheme, List.isPrefixOf, List.replicate, dropSlash_slash, dropSlash_of_head hr]
  rw [key, takeWhile_no_newline hnl]

/-- The path `http://github.com/o/r`. -/
theorem normalize_strips_scheme_witness :
    normalize "http://github.com/o/r".toList = some "https://github.com/o/r".toList :=
  normalize_strips_scheme "http:".toList 2 "github.com/o/r".toList (Or.inl rfl) (by decide)
    (by decide) (by decide)

/-- C8. Every path has a normalized URL; normalizing that URL (which has no
leading `/` for `handler` to trim) gives the same URL, and classifying it gives the
same API flag, the same index of the first matching pattern of `exps` and the same
owner as classifying the path it came from. -/
theorem normalize_idempotent (p : List Char) :
    ∃ u, normalize p = some u ∧ trimPrefix u ['/'] = u ∧ normalize u = some u ∧
      classify u = classify p := by
  have h1 := normalize_eq p
  refine ⟨_, h1, by simp [trimPrefix, List.isPrefixOf], ?_⟩
  have h2 : normalize ("https://".toList ++
      (dropSlash (dropSlash (dropScheme p))).takeWhile (fun a => a != '\n')) =
      some ("https://".toList ++
        (dropSlash (dropSlash (dropScheme p))).takeWhile (fun a => a != '\n')) := by
    rw [normalize_eq]
    have key : ∀ m : List Char,
        dropSlash (dropSlash (dropScheme ("https://".toList ++ m))) = m := by
      intro m
      simp [dropScheme, List.isPrefixOf, dropSlash_slash]
    rw [key, takeWhile_idem]
  exact ⟨h2, by simp only [classify, h1, h2]⟩

/-! ## Properties of `proxy` and `handleAPIRequest` -/

/-! ### Decimal numerals -/

theorem decimalValue_ge (s : List Char) (n : Nat) : n ≤ decimalValue s n := by
  induction s generalizing n with
  | nil => exact Nat.le_refl _
  | cons ch t ih =>
    have h := ih (n * 10 + (ch.toNat - '0'.toNat))
    simp only [decimalValue, List.foldl_cons] at h ⊢
    omega

theorem parseUintLoop_ok_iff (s : List Char) (n m : Nat) (hn : n < 2 ^ 64) :
    parseUintLoop s n = .ok m ↔
      s.all isDecimalDigit = true ∧ decimalValue s n = m ∧ m < 2 ^ 64 := by
  induction s generalizing n with
  | nil =>
    simp only [parseUintLoop, Except.ok.injEq, List.all_nil, decimalValue, List.foldl_nil,
      true_and]
    constructor
    · rintro rfl
      exact ⟨rfl, hn⟩
    · rintro ⟨rfl, _⟩
      rfl
  | cons ch t ih =>
    have hge := decimalValue_ge t (n * 10 + (ch.toNat - '0'.toNat))
    have hval : decimalValue (ch :: t) n = decimalValue t (n * 10 + (ch.toNat - '0'.toNat)) := rfl
    by_cases hd : '0' ≤ ch ∧ ch ≤ '9'
    · have hdig : isDecimalDigit ch = true := by simp [isDecimalDigit, hd]
      have hd9 : ch.toNat - '0'.toNat ≤ 9 := by
        have h9 : ch.toNat ≤ '9'.toNat := hd.2
        have e9 : '9'.toNat = 57 := by decide
        have e0 : '0'.toNat = 48 := by decide
        omega
      simp only [parseUintLoop, hd, and_self, if_true, List.all_cons, hdig, Bool.true_and, hval]
      by_cases hc : n ≥ (2 ^ 64 - 1) / 10 + 1
      · simp only [hc, if_true]
        constructor
        · intro h
          cases h
        · rintro ⟨_, rfl, hm⟩
          exfalso
          norm_num at hc
          omega
      · simp only [hc, if_false]
        norm_num at hc
        by_cases hov : n * 10 + (ch.toNat - '0'.toNat) < 2 ^ 64
        · rw [Nat.mod_eq_of_lt hov]
          have h1 : ¬ (n * 10 + (ch.toNat - '0'.toNat) < n * 10 ∨
              n * 10 + (ch.toNat - '0'.toNat) > 2 ^ 64 - 1) := by omega
          simp only [h1, if_false]
          exact ih _ hov
        · have h1 : (n * 10 + (ch.toNat - '0'.toNat)) % 2 ^ 64 < n * 10 ∨
              (n * 10 + (ch.toNat - '0'.toNat)) % 2 ^ 64 > 2 ^ 64 - 1 := by
            left
            omega
          simp only [h1, if_true]
          constructor
          · intro h
            cases h
          · rintro ⟨_, rfl, hm⟩
            exfalso
            omega
    · have hdig : isDecimalDigit ch = false := by simp [isDecimalDigit, hd]
      simp only [parseUintLoop, hd, if_false, List.all_cons, hdig, Bool.false_and]
      constructor
      · intro h
        cases h
      · rintro ⟨h, _⟩
        cases h

theorem parseUint_ok_iff (s : List Char) (m : Nat) :
    parseUint s = .ok m ↔ decimalNat s = some m ∧ m < 2 ^ 64 := by
  unfold parseUint decimalNat
  by_cases hs : s = []
  · subst hs
    simp
  · simp only [hs, if_false, ne_eq, not_false_eq_true, true_and]
    rw [parseUintLoop_ok_iff s 0 m (by norm_num)]
    by_cases ha : s.all isDecimalDigit = true
    · simp [ha]
    · simp [ha]

theorem decimalInt_cons (ch : Char) (t : List Char) :
    decimalInt (ch :: t) =
      (decimalNat (if ch = '+' ∨ ch = '-' then t else ch :: t)).map
        (fun k : Nat => if ch = '-' then - (k : Int) else (k : Int)) := by
  by_cases hm : ch = '-'
  · subst hm
    simp [decimalInt]
  · by_cases hpl : ch = '+'
    · subst hpl
      simp [decimalInt]
    · simp [decimalInt, hm, hpl]

/-- The model of `strconv.ParseInt(s, 10, 64)` succeeds exactly on the decimal
numerals, with an optional sign, of the integers of 64 bits, and returns the
integer. -/
theorem parseInt_ok_iff (s : List Char) (n : Int) :
    parseInt s = .ok n ↔ decimalInt s = some n ∧ -2 ^ 63 ≤ n ∧ n < 2 ^ 63 := by
  cases s with
  | nil => simp [parseInt, decimalInt]
  | cons ch t =>
    have key : ∀ (digits : List Char) (neg : Prop) [Decidable neg],
        (match parseUint digits with
          | .error e => (.error e : Except NumError Int)
          | .ok un =>
            if ¬ neg ∧ un ≥ 2 ^ 63 then .error .errRange
            else if neg ∧ un > 2 ^ 63 then .error .errRange
            else .ok (if neg then - (un : Int) else (un : Int))) = .ok n ↔
          (decimalNat digits).map (fun k : Nat => if neg then - (k : Int) else (k : Int))
            = some n ∧ -2 ^ 63 ≤ n ∧ n < 2 ^ 63 := by
      intro digits neg _
      cases hp : parseUint digits with
      | error e =>
        constructor
        · intro h0
          cases h0
        · rintro ⟨hd, h1, h2⟩
          exfalso
          obtain ⟨k, hk, hkn⟩ := Option.map_eq_some'.mp hd
          have hlt : k < 2 ^ 64 := by
            by_cases hneg : neg
            · simp only [hneg, if_true] at hkn
              omega
            · simp only [hneg, if_false] at hkn
              omega
          have := (parseUint_ok_iff digits k).mpr ⟨hk, hlt⟩
          rw [hp] at this
          cases this
      | ok un =>
        obtain ⟨hd, hlt⟩ := (parseUint_ok_iff digits un).mp hp
        simp only [hd, Option.map_some', Option.some.injEq]
        by_cases hneg : neg
        · simp only [hneg, not_true_eq_false, false_and, if_false, true_and, if_true]
          by_cases h : un > 2 ^ 63
          · simp only [h, if_true]
            constructor
            · intro h0
              cases h0
            · rintro ⟨rfl, h1, _⟩
              omega
          · simp only [h, if_false, Except.ok.injEq]
            constructor
            · rintro rfl
              exact ⟨rfl, by omega, by omega⟩
            · rintro ⟨rfl, _⟩
              rfl
        · simp only [hneg, not_false_eq_true, true_and, false_and, if_false]
          by_cases h : un ≥ 2 ^ 63
          · simp only [h, if_true]
            constructor
            · intro h0
              cases h0
            · rintro ⟨rfl, _, h2⟩
              omega
          · simp only [h, if_false, Except.ok.injEq]
            constructor
            · rintro rfl
              exact ⟨rfl, by omega, by omega⟩
            · rintro ⟨rfl, _⟩
              rfl
    rw [decimalInt_cons]
    exact key (if ch = '+' ∨ ch = '-' then t else ch :: t) (ch = '-')

/-! ### The size test -/

theorem sizeLimit_eq : sizeLimit = 1073741824 := by decide

theorem get_of_values_cons {h : Header} {key v : String} {rest : List String}
    (hv : Header.values h key = v :: rest) : Header.get h key = v := by
  simp [Header.get, hv]

theorem get_of_values_nil {h : Header} {key : String}
    (hv : Header.values h key = []) : Header.get h key = "" := by
  simp [Header.get, hv]

/-- The size test of `proxy` in words: the header is there, its first value is the
decimal numeral of an integer of 64 bits, and the integer is above 1 GiB. -/
theorem size_test_iff (h : Header) :
    (Header.get h "Content-Length" ≠ "" ∧ overLimit (Header.get h "Content-Length") = true) ↔
      ∃ v rest n, Header.values h "Content-Length" = v :: rest ∧
        decimalInt v.toList = some n ∧ 1073741824 < n ∧ n < 2 ^ 63 := by
  constructor
  · rintro ⟨hne, hov⟩
    cases hv : Header.values h "Content-Length" with
    | nil => exact absurd (get_of_values_nil hv) hne
    | cons v rest =>
      rw [get_of_values_cons hv] at hov
      unfold overLimit at hov
      cases hp : parseInt v.toList with
      | error e => rw [hp] at hov; cases hov
      | ok n =>
        rw [hp] at hov
        obtain ⟨hd, _, hhi⟩ := (parseInt_ok_iff v.toList n).mp hp
        refine ⟨v, rest, n, rfl, hd, ?_, hhi⟩
        rw [← sizeLimit_eq]
        simpa using hov
  · rintro ⟨v, rest, n, hv, hd, hn, hhi⟩
    have hp : parseInt v.toList = .ok n :=
      (parseInt_ok_iff v.toList n).mpr ⟨hd, by omega, hhi⟩
    rw [get_of_values_cons hv]
    constructor
    · rintro rfl
      cases hp
    · unfold overLimit
      rw [hp]
      rw [← sizeLimit_eq] at hn
      simpa using hn

/-- C5. For a successful upstream response, `proxy` answers 307 with the resolved
upstream URL as location, streaming nothing, exactly when the response has a
`Content-Length` header whose first value is a decimal number within the signed
64-bit range and greater than 1073741824; in every other case (no such header, a
value that does not parse, a value of at most 1073741824) it sets the upstream
status and streams the body. -/
theorem proxy_size_redirect (client : Client) (c : Context) (u : List Char) (resp : Response)
    (hreq : client.newRequest c.method u = none)
    (hresp : client.roundTrip (proxyRequest c u) = .ok resp) :
    ((proxy client c u).reply = .redirect 307 resp.url ↔
      ∃ v rest n, Header.values resp.header "Content-Length" = v :: rest ∧
        decimalInt v.toList = some n ∧ 1073741824 < n ∧ n < 2 ^ 63) ∧
    ((¬ ∃ v rest n, Header.values resp.header "Content-Length" = v :: rest ∧
        decimalInt v.toList = some n ∧ 1073741824 < n ∧ n < 2 ^ 63) →
      (proxy client c u).reply = .stream resp.statusCode
        (copyResponseHeader (cHeader c.writer "Cache-Control" "public, max-age=604800")
          resp.header) resp.body) := by
  rw [← size_test_iff]
  have hp : (proxy client c u).reply =
      if Header.get resp.header "Content-Length" ≠ "" ∧
          overLimit (Header.get resp.header "Content-Length") = true
      then .redirect 307 resp.url
      else .stream resp.statusCode
        (copyResponseHeader (cHeader c.writer "Cache-Control" "public, max-age=604800")
          resp.header) resp.body := by
    simp only [proxy, hreq, hresp]
    split_ifs <;> rfl
  by_cases hc : Header.get resp.header "Content-Length" ≠ "" ∧
      overLimit (Header.get resp.header "Content-Length") = true
  · rw [hp, if_pos hc]
    exact ⟨⟨fun _ => hc, fun _ => rfl⟩, fun h => absurd hc h⟩
  · rw [hp, if_neg hc]
    refine ⟨⟨fun h => ?_, fun h => absurd h hc⟩, fun _ => rfl⟩
    cases h

/-- A length of 1 GiB and one byte is redirected. -/
theorem proxy_size_redirect_witness :
    (proxy ⟨fun _ _ => none, fun r => .ok ⟨200, [("Content-Length", ["1073741825"])], [],
        r.url⟩⟩ ⟨"GET", [], [], [], []⟩ "https://github.com/o/r/releases/x".toList).reply =
      .redirect 307 "https://github.com/o/r/releases/x".toList :=
  (proxy_size_redirect ⟨fun _ _ => none, fun r => .ok ⟨200, [("Content-Length",
      ["1073741825"])], [], r.url⟩⟩ ⟨"GET", [], [], [], []⟩
    "https://github.com/o/r/releases/x".toList
    ⟨200, [("Content-Length", ["1073741825"])], [], "https://github.com/o/r/releases/x".toList⟩
    rfl rfl).1.mpr ⟨"1073741825", [], 1073741825, rfl, by decide, by decide, by decide⟩

/-- At exactly 1 GiB, with a length over 64 bits and with a length that is no
number the body is streamed; so it is with an empty length and with no length. -/
theorem proxy_streams_at_limit :
    (∀ v ∈ ["1073741824", "9223372036854775808", "1 GiB"],
      (proxy ⟨fun _ _ => none, fun r => .ok ⟨200, [("Content-Length", [v])], [7], r.url⟩⟩
        ⟨"GET", [], [], [], []⟩ "https://github.com/o/r/releases/x".toList).reply =
      .stream 200 [("Content-Length", [v]), ("Cache-Control", ["public, max-age=604800"])]
        [7]) ∧
    (∀ v ∈ [[""], []],
      (proxy ⟨fun _ _ => none, fun r => .ok ⟨200, [("Content-Length", v)], [7], r.url⟩⟩
        ⟨"GET", [], [], [], []⟩ "https://github.com/o/r/releases/x".toList).reply =
      .stream 200 [("Cache-Control", ["public, max-age=604800"])] [7]) := by
  decide

theorem values_del_ne {k1 k : String} (hne : k1 ≠ k) (h : Header) :
    Header.values (Header.del h k1) k = Header.values h k := by
  induction h with
  | nil => rfl
  | cons kv h ih =>
    obtain ⟨a, vs⟩ := kv
    unfold Header.values at ih ⊢
    by_cases ha : a = k1
    · subst ha
      have h1 : (k == a) = false := by simpa using fun e => hne e.symm
      simp [Header.del, List.lookup_cons, h1] at ih ⊢
      exact ih
    · by_cases hk : k = a
      · subst hk
        simp [Header.del, List.lookup_cons, ha]
      · have h1 : (k == a) = false := by simpa using hk
        simp [Header.del, List.lookup_cons, ha, h1] at ih ⊢
        exact ih

theorem values_set_self (h : Header) (k v : String) :
    Header.values (Header.set h k v) k = [v] := by
  simp [Header.values, Header.set, List.lookup_cons]

theorem values_cHeader_ne {k1 k : String} (hne : k1 ≠ k) (w : Header) (v : String) :
    Header.values (cHeader w k1 v) k = Header.values w k := by
  have h1 : (k == k1) = false := by simpa using fun e => hne e.symm
  unfold cHeader
  split_ifs
  · exact values_del_ne hne w
  · have := values_del_ne hne w
    unfold Header.values at this ⊢
    simp only [Header.set, List.lookup_cons, h1]
    exact this

theorem values_copy_key_ne {k1 k : String} (hne : k1 ≠ k) (vs : List String) (w : Header) :
    Header.values (vs.foldl (fun w2 value => cHeader w2 k1 value) w) k = Header.values w k := by
  induction vs generalizing w with
  | nil => rfl
  | cons v vs ih => rw [List.foldl_cons, ih, values_cHeader_ne hne]

/-- Copying the upstream headers leaves a key the upstream response does not have
as it was on the writer. -/
theorem values_copyResponseHeader_absent {k : String} (src : Header)
    (hk : ∀ kv ∈ src, kv.1 ≠ k) (w : Header) :
    Header.values (copyResponseHeader w src) k = Header.values w k := by
  unfold copyResponseHeader
  induction src generalizing w with
  | nil => rfl
  | cons kv src ih =>
    rw [List.foldl_cons, ih (fun kv1 h1 => hk kv1 (List.mem_cons_of_mem _ h1)),
      values_copy_key_ne (hk kv (List.mem_cons_self _ _))]

/-- C4, counterexample. An upstream `Cache-Control: no-store` reaches the caller in
place of the fixed directive. -/
theorem cache_control_overridden :
    ¬ (∀ (client : Client) (c : Context) (u : List Char) (resp : Response) (status : Nat)
        (h : Header) (body : List Nat),
        client.newRequest c.method u = none →
        client.roundTrip (proxyRequest c u) = .ok resp →
        (proxy client c u).reply = .stream status h body →
        Header.values h "Cache-Control" = ["public, max-age=604800"]) := by
  intro hall
  have h := hall ⟨fun _ _ => none, fun r => .ok ⟨200, [("Cache-Control", ["no-store"])], [],
      r.url⟩⟩ ⟨"GET", [], [], [], []⟩ "https://github.com/o/r/releases/x".toList
    ⟨200, [("Cache-Control", ["no-store"])], [], "https://github.com/o/r/releases/x".toList⟩
    200 [("Cache-Control", ["no-store"])] [] rfl rfl (by decide)
  revert h
  decide

/-- C4, amended. When the upstream response is streamed and has no `Cache-Control`
header of its own, the `Cache-Control` header sent to the caller is exactly
`public, max-age=604800`. -/
theorem cache_control_default (client : Client) (c : Context) (u : List Char)
    (resp : Response) (status : Nat) (h : Header) (body : List Nat)
    (hreq : client.newRequest c.method u = none)
    (hresp : client.roundTrip (proxyRequest c u) = .ok resp)
    (hno : ∀ kv ∈ resp.header, kv.1 ≠ "Cache-Control")
    (hs : (proxy client c u).reply = .stream status h body) :
    Header.values h "Cache-Control" = ["public, max-age=604800"] := by
  simp only [proxy, hreq, hresp] at hs
  split_ifs at hs
  simp only [Reply.stream.injEq] at hs
  rw [← hs.2.1, values_copyResponseHeader_absent resp.header hno]
  simp only [cHeader]
  rw [if_neg (by decide)]
  exact values_set_self _ _ _

/-- The default directive reaches the caller when the upstream response has only a
`Content-Type` header. -/
theorem cache_control_default_witness :
    Header.values [("Content-Type", ["text/plain"]), ("Cache-Control",
      ["public, max-age=604800"]), ("X-Frame-Options", ["DENY"])] "Cache-Control" =
      ["public, max-age=604800"] :=
  cache_control_default ⟨fun _ _ => none, fun r => .ok ⟨200, [("Content-Type",
      ["text/plain"])], [1], r.url⟩⟩ ⟨"GET", [], [], [], [("X-Frame-Options", ["DENY"])]⟩
    "https://github.com/o/r/releases/x".toList
    ⟨200, [("Content-Type", ["text/plain"])], [1], "https://github.com/o/r/releases/x".toList⟩
    200 _ [1] rfl rfl (by decide) (by decide)

/-- C10. An upstream response with two values under `Set-Cookie`: on the API path
and on the normal path alike the caller gets the last value only, the first one is
not relayed. -/
theorem multi_valued_header_keeps_last :
    Header.values (handleAPIRequest ⟨fun _ _ => none,
        fun r => .ok ⟨200, [("Set-Cookie", ["a=1", "b=2"])], [], r.url⟩⟩
        ⟨"GET", [], [], [], []⟩ "https://api.github.com/user".toList).reply.header
        "Set-Cookie" = ["b=2"] ∧
    Header.values (proxy ⟨fun _ _ => none,
        fun r => .ok ⟨200, [("Set-Cookie", ["a=1", "b=2"])], [], r.url⟩⟩
        ⟨"GET", [], [], [], []⟩ "https://github.com/o/r/releases/x".toList).reply.header
        "Set-Cookie" = ["b=2"] := by
  decide

/-! ## The API test and the blob rewrite on concrete paths -/

/-- C1. The path `evil.com/api.github.com` contains the API host, so `handler`
forwards it through `handleAPIRequest`, to the host `evil.com`; its normalized URL
matches no pattern of `exps`. -/
theorem api_marker_on_other_host :
    handler [] "/evil.com/api.github.com".toList =
      .handleAPIRequest "https://evil.com/api.github.com".toList ∧
    (∀ e ∈ exps, matchString e "https://evil.com/api.github.com".toList = false) ∧
    (serve [] ⟨fun _ _ => none, fun r => .ok ⟨200, [], [], r.url⟩⟩
        ⟨"GET", "/evil.com/api.github.com".toList, [], [], []⟩).sent =
      [⟨"GET", "https://evil.com/api.github.com".toList, [], []⟩] := by
  decide

/-- C3. For a repository named `blob` the rewrite replaces the repository segment:
`github.com/o/blob/blob/main/f.txt` is dispatched to
`https://github.com/o/raw/blob/main/f.txt`, not to
`https://github.com/o/blob/raw/main/f.txt`. -/
theorem blob_repository_rewritten :
    handler [] "/github.com/o/blob/blob/main/f.txt".toList =
      .proxy "https://github.com/o/raw/blob/main/f.txt".toList ∧
    handler [] "/github.com/o/blob/blob/main/f.txt".toList ≠
      .proxy "https://github.com/o/blob/raw/main/f.txt".toList := by
  decide

/-! ## What the header loops relay -/

theorem values_del_self (h : Header) (k : String) : Header.values (Header.del h k) k = [] := by
  induction h with
  | nil => rfl
  | cons kv h ih =>
    obtain ⟨a, vs⟩ := kv
    unfold Header.values at ih ⊢
    by_cases ha : a = k
    · subst ha
      simpa [Header.del] using ih
    · have h1 : (k == a) = false := by simpa using fun e => ha e.symm
      simp only [Header.del, List.filter_cons, bne_iff_ne, ne_eq, ha, not_false_eq_true,
        decide_True, if_true, List.lookup_cons, h1]
      simpa [Header.del] using ih

theorem values_cHeader_self (w : Header) (k v : String) :
    Header.values (cHeader w k v) k = if v = "" then [] else [v] := by
  unfold cHeader
  split_ifs
  · exact values_del_self w k
  · exact values_set_self w k v

/-- The loop over the values of one key leaves the last value alone under the key
(nothing when it is empty). -/
theorem values_copy_key_self (w : Header) (k : String) (vs : List String) (v : String) :
    Header.values ((vs ++ [v]).foldl (fun w2 value => cHeader w2 k value) w) k =
      if v = "" then [] else [v] := by
  rw [List.foldl_append, List.foldl_cons, List.foldl_nil, values_cHeader_self]

/-- What the caller gets under a key of the upstream response (taken at its last
entry in the loop): the last of its values, whatever the writer had under the key
and however many values there are. -/
theorem values_copyResponseHeader_last (w : Header) (l1 l2 : Header) (k : String)
    (vs : List String) (v : String) (hv : v ≠ "") (h2 : ∀ kv ∈ l2, kv.1 ≠ k) :
    Header.values (copyResponseHeader w (l1 ++ (k, vs ++ [v]) :: l2)) k = [v] := by
  have hsplit : copyResponseHeader w (l1 ++ (k, vs ++ [v]) :: l2) =
      copyResponseHeader ((vs ++ [v]).foldl (fun w2 value => cHeader w2 k value)
        (copyResponseHeader w l1)) l2 := by
    simp only [copyResponseHeader, List.foldl_append, List.foldl_cons]
  rw [hsplit, values_copyResponseHeader_absent l2 h2, values_copy_key_self, if_neg hv]

/-! ## Blob URLs of owners and repositories not named `blob` -/

theorem mem_iter_cls_of_all {n : Nat} {g : Bool} {p : Char → Bool} (rest : List Char)
    (c : Caps) :
    ∀ (w : List Char) (k : Nat), (∀ a ∈ w, p a = true) → w.length ≤ k →
      (rest, c) ∈ Re.iter g (fun s1 c1 => run n (cls p) s1 c1) k (w ++ rest) c := by
  intro w
  induction w with
  | nil =>
    intro k _ _
    cases k with
    | zero => simp [Re.iter]
    | succ k => cases g <;> simp [Re.iter]
  | cons a w ih =>
    intro k hw hk
    cases k with
    | zero => simp at hk
    | succ k =>
      have hpa : p a = true := hw a (List.mem_cons_self _ _)
      have hrec := ih k (fun b hb => hw b (List.mem_cons_of_mem _ hb)) (by simpa using hk)
      have hmem : (rest, c) ∈ ((run n (cls p) (a :: w ++ rest) c).filter
          (fun x => decide (x.1.length < (a :: w ++ rest).length))).flatMap
          (fun x => Re.iter g (fun s1 c1 => run n (cls p) s1 c1) k x.1 x.2) := by
        rw [List.cons_append, run_cls_cons, if_pos hpa]
        simp only [List.filter_cons, List.length_cons, Nat.lt_succ_self, decide_True, if_true,
          List.filter_nil, List.flatMap_cons, List.flatMap_nil, List.append_nil]
        exact hrec
      cases g
      · simp only [Re.iter, Bool.false_eq_true, if_false, List.mem_cons]
        exact Or.inr hmem
      · simp only [Re.iter, if_true, List.mem_append]
        exact Or.inl hmem

theorem mem_run_star_cls_of_all {n : Nat} {g : Bool} {p : Char → Bool} (w rest : List Char)
    (c : Caps) (hw : ∀ a ∈ w, p a = true) : (rest, c) ∈ run n (star g (cls p)) (w ++ rest) c := by
  rw [run_star]
  exact mem_iter_cls_of_all rest c w _ hw (by simp)

theorem mem_run_plus_cls_of_all {n : Nat} {g : Bool} {p : Char → Bool} (w rest : List Char)
    (c : Caps) (hne : w ≠ []) (hw : ∀ a ∈ w, p a = true) :
    (rest, c) ∈ run n (plus g (cls p)) (w ++ rest) c := by
  cases w with
  | nil => exact absurd rfl hne
  | cons a w =>
    unfold plus
    rw [mem_run_seq]
    refine ⟨(w ++ rest, c), ?_, ?_⟩
    · rw [mem_run_cls]
      exact ⟨a, hw a (List.mem_cons_self _ _), rfl, rfl⟩
    · exact mem_run_star_cls_of_all w rest c (fun b hb => hw b (List.mem_cons_of_mem _ hb))

theorem mem_run_segment_of {n i : Nat} (w rest : List Char) (c : Caps) (hne : w ≠ [])
    (hw : '/' ∉ w) : (rest, (i, w) :: c) ∈ run n (segment i) (w ++ rest) c := by
  unfold segment notChr
  rw [mem_run_grp]
  refine ⟨(rest, c), mem_run_plus_cls_of_all w rest c hne ?_, ?_⟩
  · intro a ha
    have : a ≠ '/' := fun e => hw (e ▸ ha)
    simpa using this
  · simp

theorem mem_run_scheme_https {n : Nat} (t : List Char) (c : Caps) :
    (t, c) ∈ run n scheme ("https://".toList ++ t) c := by
  unfold scheme
  rw [mem_run_opt]
  left
  simp only [cat, mem_run_seq, mem_run_str, mem_run_opt, mem_run_chr]
  refine ⟨("s://".toList ++ t, c), ⟨by simp, rfl⟩, (("://".toList ++ t, c)), ?_, by simp, rfl⟩
  left
  exact ⟨by simp, rfl⟩

/-- The blob/raw pattern matches `https://github.com/<o>/<r>/blob/<rest>`. -/
theorem exp1_matches_blob (o r rest : List Char) (ho : o ≠ []) (hos : '/' ∉ o)
    (hr : r ≠ []) (hrs : '/' ∉ r) (hnl : '\n' ∉ rest) :
    matchString exp1 ("https://github.com/".toList ++ (o ++ '/' :: (r ++ '/' ::
      ("blob/".toList ++ rest)))) = true := by
  unfold matchString
  apply search_isSome_of_mem (x := ([], _))
  rw [mem_run_grp]
  refine ⟨([], [(2, r), (1, o)]), ?_, rfl⟩
  simp only [exp1, cat]
  rw [mem_run_seq]
  refine ⟨(_, []), mem_run_bot.mpr ⟨rfl, rfl⟩, ?_⟩
  rw [mem_run_seq]
  refine ⟨("github.com/".toList ++ (o ++ '/' :: (r ++ '/' :: ("blob/".toList ++ rest))), []),
    ?_, ?_⟩
  · have := @mem_run_scheme_https ("https://github.com/".toList ++ (o ++ '/' :: (r ++ '/' ::
      ("blob/".toList ++ rest)))).length
      ("github.com/".toList ++ (o ++ '/' :: (r ++ '/' :: ("blob/".toList ++ rest)))) []
    simpa using this
  rw [mem_run_seq]
  refine ⟨(o ++ '/' :: (r ++ '/' :: ("blob/".toList ++ rest)), []),
    mem_run_str.mpr ⟨rfl, rfl⟩, ?_⟩
  rw [mem_run_seq]
  refine ⟨('/' :: (r ++ '/' :: ("blob/".toList ++ rest)), [(1, o)]),
    mem_run_segment_of o _ [] ho hos, ?_⟩
  rw [mem_run_seq]
  refine ⟨(r ++ '/' :: ("blob/".toList ++ rest), [(1, o)]), mem_run_chr.mpr ⟨rfl, rfl⟩, ?_⟩
  rw [mem_run_seq]
  refine ⟨('/' :: ("blob/".toList ++ rest), [(2, r), (1, o)]),
    mem_run_segment_of r _ _ hr hrs, ?_⟩
  rw [mem_run_seq]
  refine ⟨("blob/".toList ++ rest, [(2, r), (1, o)]), mem_run_chr.mpr ⟨rfl, rfl⟩, ?_⟩
  rw [mem_run_seq]
  refine ⟨('/' :: rest, [(2, r), (1, o)]), mem_run_alt.mpr (Or.inl (mem_run_str.mpr
    ⟨by simp, rfl⟩)), ?_⟩
  rw [mem_run_seq]
  refine ⟨(rest, [(2, r), (1, o)]), mem_run_chr.mpr ⟨rfl, rfl⟩, ?_⟩
  rw [mem_run_seq]
  refine ⟨([], [(2, r), (1, o)]), ?_, mem_run_eot.mpr ⟨rfl, rfl⟩⟩
  have := @mem_run_star_cls_of_all ("https://github.com/".toList ++ (o ++ '/' :: (r ++ '/' ::
      ("blob/".toList ++ rest)))).length true (fun a => a != '\n') rest [] [(2, r), (1, o)]
    (fun a ha => by
      have : a ≠ '\n' := fun e => hnl (e ▸ ha)
      simpa using this)
  simpa [dot] using this

/-- The release/archive pattern does not match a blob URL. -/
theorem exp0_rejects_blob (o r rest : List Char) (ho : o ≠ []) (hos : '/' ∉ o)
    (hr : r ≠ []) (hrs : '/' ∉ r) (hnl : '\n' ∉ rest) :
    findStringSubmatch exp0 ("https://github.com/".toList ++ (o ++ '/' :: (r ++ '/' ::
      ("blob/".toList ++ rest)))) = none := by
  cases h : findStringSubmatch exp0 ("https://github.com/".toList ++ (o ++ '/' :: (r ++ '/' ::
      ("blob/".toList ++ rest)))) with
  | none => rfl
  | some m =>
    have h0 : matchString exp0 ("https://github.com/".toList ++ (o ++ '/' :: (r ++ '/' ::
        ("blob/".toList ++ rest)))) = true := by
      rw [matchString_eq_isSome, h]
      rfl
    have := exp1_matches_blob o r rest ho hos hr hrs hnl
    rw [exp0_excludes_exp1 h0] at this
    cases this

/-- The owner the blob/raw pattern captures from
`https://github.com/<o>/<r>/blob/<rest>` is `o`. -/
theorem exp1_owner_blob (o r rest : List Char) (ho : o ≠ []) (hos : '/' ∉ o)
    (hr : r ≠ []) (hrs : '/' ∉ r) (hnl : '\n' ∉ rest) :
    ∃ m, findStringSubmatch exp1 ("https://github.com/".toList ++ (o ++ '/' :: (r ++ '/' ::
      ("blob/".toList ++ rest)))) = some m ∧ 1 < m.length ∧ m.getD 1 [] = o := by
  have hm := exp1_matches_blob o r rest ho hos hr hrs hnl
  rw [matchString_eq_isSome] at hm
  obtain ⟨m, hm⟩ := Option.isSome_iff_exists.mp hm
  refine ⟨m, hm, (owner_nonempty (by simp) hm).1, ?_⟩
  obtain ⟨x, hx, rfl⟩ := findStringSubmatch_anchored hm
  simp only [cat] at hx
  obtain ⟨pre, o1, r1, t1, hp, hu, ho1, hr1, hx⟩ := mem_run_repo hx
  have huniq := repo_tail_unique (Or.inr (Or.inr rfl)) hp hos ho1 hrs hr1
    (by simpa using hu)
  have hcap : capText x.2 1 = o1 := by
    rw [capText_run _ (by simp [groups, groups_str, chr, dot]) t1 _ x hx]
    rw [capText_cons_ne (by decide), capText_cons_self]
  have hn : numSubexp (cat [scheme, str "github.com/".toList, segment 1, chr '/', segment 2,
      chr '/', alt (str "blob".toList) (str "raw".toList), chr '/', star true dot, eot]) + 1
      = 3 := by
    simp [cat, numSubexp, numSubexp_str, scheme, segment, chr, dot, plus, notChr, opt]
  rw [hn]
  have hr3 : List.range 3 = [0, 1, 2] := by decide
  rw [hr3]
  simp only [List.map_cons, List.getD_cons_succ, List.getD_cons_zero]
  rw [capText_cons_ne (by decide), hcap, huniq.1]

theorem replaceFirst_blob_cons_ne (new : List Char) {a : Char} (ha : a ≠ '/') (t : List Char) :
    replaceFirst "/blob/".toList new (a :: t) = a :: replaceFirst "/blob/".toList new t := by
  have ha2 : ¬ '/' = a := fun e => ha e.symm
  simp [replaceFirst, List.isPrefixOf, ha2]

theorem replaceFirst_blob_noSlash (new : List Char) {w : List Char} (hw : '/' ∉ w)
    (t : List Char) :
    replaceFirst "/blob/".toList new (w ++ t) = w ++ replaceFirst "/blob/".toList new t := by
  induction w with
  | nil => rfl
  | cons a w ih =>
    have ha : a ≠ '/' := fun e => hw (e ▸ List.mem_cons_self _ _)
    rw [List.cons_append, replaceFirst_blob_cons_ne new ha,
      ih (fun h => hw (List.mem_cons_of_mem _ h)), List.cons_append]

theorem blob_not_isPrefixOf {w : List Char} (hw : '/' ∉ w) (hb : w ≠ "blob".toList)
    (t : List Char) : "blob/".toList.isPrefixOf (w ++ '/' :: t) = false := by
  rcases w with _ | ⟨a, _ | ⟨b, _ | ⟨c, _ | ⟨d, _ | ⟨e, w⟩⟩⟩⟩⟩
  · simp [List.isPrefixOf]
  · simp [List.isPrefixOf]
  · simp [List.isPrefixOf]
  · simp [List.isPrefixOf]
  · simp only [String.toList, ne_eq, List.cons.injEq, and_true, not_and] at hb
    simp only [String.toList, List.cons_append, List.nil_append, List.isPrefixOf,
      Bool.and_true, Bool.and_eq_false_imp, beq_iff_eq, beq_eq_false_iff_ne, ne_eq]
    intro h1 h2 h3 h4
    exact absurd h4.symm (hb h1.symm h2.symm h3.symm)
  · have he : e ≠ '/' := fun h => hw (by simp [h])
    have he2 : ¬ '/' = e := fun h => he h.symm
    simp [List.isPrefixOf, he2]

theorem replaceFirst_blob_segment (new : List Char) {w : List Char} (hw : '/' ∉ w)
    (hb : w ≠ "blob".toList) (t : List Char) :
    replaceFirst "/blob/".toList new ('/' :: (w ++ '/' :: t)) =
      '/' :: (w ++ replaceFirst "/blob/".toList new ('/' :: t)) := by
  have h := blob_not_isPrefixOf hw hb t
  have h2 : "/blob/".toList.isPrefixOf ('/' :: (w ++ '/' :: t)) = false := by
    have : "/blob/".toList = '/' :: "blob/".toList := rfl
    rw [this, List.isPrefixOf]
    simpa using h
  rw [replaceFirst, h2]
  simp only [Bool.false_eq_true, if_false]
  rw [replaceFirst_blob_noSlash new hw]

/-- What `strings.Replace(url, "/blob/", "/raw/", 1)` does to a blob URL whose
owner and repository are not named `blob`: the segment after them is replaced. -/
theorem replaceFirst_blob_url (o r rest : List Char) (hos : '/' ∉ o) (hrs : '/' ∉ r)
    (hob : o ≠ "blob".toList) (hrb : r ≠ "blob".toList) :
    replaceFirst "/blob/".toList "/raw/".toList ("https://github.com/".toList ++
        (o ++ '/' :: (r ++ '/' :: ("blob/".toList ++ rest)))) =
      "https://github.com/".toList ++ (o ++ '/' :: (r ++ '/' :: ("raw/".toList ++ rest))) := by
  have e1 : "https://github.com/".toList ++ (o ++ '/' :: (r ++ '/' :: ("blob/".toList ++ rest)))
      = "https:".toList ++ ('/' :: ([] ++ '/' :: ("github.com".toList ++
        ('/' :: (o ++ '/' :: (r ++ '/' :: ("blob/".toList ++ rest))))))) := by simp
  rw [e1, replaceFirst_blob_noSlash _ (by decide),
    replaceFirst_blob_segment _ (by decide) (by decide), List.nil_append,
    replaceFirst_blob_segment _ (by decide) (by decide),
    replaceFirst_blob_segment _ hos hob, replaceFirst_blob_segment _ hrs hrb]
  simp [replaceFirst, List.isPrefixOf]

/-- The rewrite as documented, where it holds: for an owner and a repository that
are non-empty, hold no `/` and are not named `blob`, with no line feed in the
path, the owner not on the denylist and the URL no API request, the path
`github.com/<owner>/<repo>/blob/<rest>` is dispatched to
`https://github.com/<owner>/<repo>/raw/<rest>`. -/
theorem blob_rewritten_to_raw (blacklist : List (List Char)) (o r rest : List Char)
    (ho : o ≠ []) (hos : '/' ∉ o) (hr : r ≠ []) (hrs : '/' ∉ r)
    (hob : o ≠ "blob".toList) (hrb : r ≠ "blob".toList)
    (hno : '\n' ∉ o) (hnr : '\n' ∉ r) (hnl : '\n' ∉ rest)
    (hbl : o ∉ blacklist)
    (hapi : contains ("https://github.com/".toList ++ (o ++ '/' :: (r ++ '/' ::
      ("blob/".toList ++ rest)))) "api.github.com".toList = false) :
    handler blacklist ('/' :: ("github.com/".toList ++ (o ++ '/' :: (r ++ '/' ::
        ("blob/".toList ++ rest))))) =
      .proxy ("https://github.com/".toList ++ (o ++ '/' :: (r ++ '/' ::
        ("raw/".toList ++ rest)))) := by
  have htrim : trimPrefix ('/' :: ("github.com/".toList ++ (o ++ '/' :: (r ++ '/' ::
      ("blob/".toList ++ rest))))) ['/'] =
      "github.com/".toList ++ (o ++ '/' :: (r ++ '/' :: ("blob/".toList ++ rest))) := by
    simp [trimPrefix, List.isPrefixOf]
  have hnorm : normalize ("github.com/".toList ++ (o ++ '/' :: (r ++ '/' ::
      ("blob/".toList ++ rest)))) =
      some ("https://github.com/".toList ++ (o ++ '/' :: (r ++ '/' ::
        ("blob/".toList ++ rest)))) := by
    rw [normalize_eq]
    have hd : dropSlash (dropSlash (dropScheme ("github.com/".toList ++ (o ++ '/' :: (r ++ '/' ::
        ("blob/".toList ++ rest)))))) =
        "github.com/".toList ++ (o ++ '/' :: (r ++ '/' :: ("blob/".toList ++ rest))) := by
      simp [dropScheme, List.isPrefixOf, dropSlash]
    rw [hd, takeWhile_no_newline]
    · simp
    · simp [hno, hnr, hnl]
  obtain ⟨m, hm, hlen, hown⟩ := exp1_owner_blob o r rest ho hos hr hrs hnl
  have h0 := exp0_rejects_blob o r rest ho hos hr hrs hnl
  have hscan : scanExps ("https://github.com/".toList ++ (o ++ '/' :: (r ++ '/' ::
      ("blob/".toList ++ rest)))) exps = (true, o) := by
    simp only [exps, scanExps, h0, hm, gt_iff_lt, hlen, if_true, hown]
  have h1 := exp1_matches_blob o r rest ho hos hr hrs hnl
  have hne : "github.com/".toList ++ (o ++ '/' :: (r ++ '/' :: ("blob/".toList ++ rest)))
      ≠ [] := by simp
  simp only [handler, htrim, hne, if_false, hnorm, hapi, Bool.false_eq_true, hscan,
    Bool.not_true, ne_eq, hbl, and_false, h1, if_true,
    replaceFirst_blob_url o r rest hos hrs hob hrb]

/-- The path `github.com/o/r/blob/main/f.txt` of the documentation. -/
theorem blob_rewritten_to_raw_witness :
    handler [] "/github.com/o/r/blob/main/f.txt".toList =
      .proxy "https://github.com/o/r/raw/main/f.txt".toList :=
  blob_rewritten_to_raw [] "o".toList "r".toList "main/f.txt".toList (by decide) (by decide)
    (by decide) (by decide) (by decide) (by decide) (by decide) (by decide) (by decide)
    (by decide) (by decide)

end GhHok
